import Mathlib

/-!
# deployment-manifest: the manifest pipeline of `main.go`

A shallow embedding of `src/main.go`.

* `parseRepoTags` (lines 39-55) together with the part of Go's `encoding/csv` reader it
  drives, with the reader's default settings (comma separator, no comment character,
  strict quotes, no trimming, field count fixed by the first record).
* the matching loop of `main` (lines 101-120) as `matchImages`.
* the acquisition loop and the tail of `main` (lines 81-148) as `run`, a function from the
  outcomes of the external calls to the sequence of external calls made and the way the
  process ends.
* the document `json.MarshalIndent` produces for `OutputMap` (lines 24-37, 129-135) as a
  `Json` value.

Go strings are modelled by `String`, so the input text is taken to be valid UTF-8; the
separator, quote, carriage return and line feed are ASCII, so splitting by characters and
splitting by bytes agree on such text.
-/

namespace Manifest

/-! ## Go slices -/

/-- A Go slice value: the nil slice, or a slice over a sequence of elements. The two are
told apart because `encoding/json` renders them differently. -/
inductive Slice (α : Type) where
  | nil : Slice α
  | mk (xs : List α) : Slice α
  deriving DecidableEq

namespace Slice

/-- The elements of a slice, in order; the nil slice has none. -/
def toList {α : Type} : Slice α → List α
  | nil => []
  | mk xs => xs

/-- Go's `append(s, x)`: appending to the nil slice allocates a one-element slice. -/
def append {α : Type} (s : Slice α) (x : α) : Slice α :=
  match s with
  | nil => mk [x]
  | mk xs => mk (xs ++ [x])

/-- Appending the elements of a list one by one, as a `range` loop over it does. -/
def appendList {α : Type} (s : Slice α) (xs : List α) : Slice α :=
  xs.foldl Slice.append s

/-- A slice that was only ever built by appending to the nil slice: it is nil or it has an
element, never an allocated empty slice. -/
def Grown {α : Type} (s : Slice α) : Prop := s ≠ mk []

end Slice

/-! ## Data model (`main.go` lines 24-37 and the Docker image summary) -/

/-- The struct `ImageInfo` of `main.go`. -/
structure ImageInfo where
  RepoTag : String
  ImageID : String
  GitRef : String
  deriving DecidableEq

/-- The struct `OutputMap` of `main.go`. -/
structure OutputMap where
  Hostname : String
  Date : String
  Images : Slice ImageInfo

/-- The fields of a listed image that `main` reads: `ID`, `RepoTags` and `Labels`. `Labels`
is a Go `map[string]string`, which may be nil (`none`); a non-nil map is given by its
bindings, read by key. -/
structure ImageSummary where
  ID : String
  RepoTags : List String
  Labels : Option (List (String × String))
  deriving DecidableEq

/-- The Go expression `v, ok := m[k]`: the value bound to `k` and `true`, or the zero value
and `false` when the map is nil or has no such key. -/
def mapIndexOk (m : Option (List (String × String))) (k : String) : String × Bool :=
  match m with
  | none => ("", false)
  | some kvs =>
    match kvs.lookup k with
    | some v => (v, true)
    | none => ("", false)

/-- The Go expression `m[k]`. -/
def mapIndex (m : Option (List (String × String))) (k : String) : String :=
  (mapIndexOk m k).1

/-! ## The matcher (`main.go` lines 101-120) -/

/-- Lines 108-111: `gitref` starts as the empty string and is set from the label
`org.cyverse.git-ref` when the key is present. -/
def gitRefOf (li : ImageSummary) : String :=
  if (mapIndexOk li.Labels "org.cyverse.git-ref").2 then
    mapIndex li.Labels "org.cyverse.git-ref"
  else ""

/-- Lines 106-118: the loop over `parsedRepos` for one listed tag of one image. -/
def matchTag (parsedRepos : List String) (li : ImageSummary) (acc : Slice ImageInfo)
    (listedRepoTag : String) : Slice ImageInfo :=
  parsedRepos.foldl (fun acc rt =>
    if listedRepoTag = rt then
      acc.append { RepoTag := listedRepoTag, ImageID := li.ID, GitRef := gitRefOf li }
    else acc) acc

/-- Lines 105-119: the loop over the tags of one listed image. -/
def matchImage (parsedRepos : List String) (acc : Slice ImageInfo) (li : ImageSummary) :
    Slice ImageInfo :=
  li.RepoTags.foldl (matchTag parsedRepos li) acc

/-- Lines 103-120: `imageInfos` after the loop over the listed images; it starts as the nil
slice (`var imageInfos []ImageInfo`). -/
def matchImages (listedImages : List ImageSummary) (parsedRepos : List String) :
    Slice ImageInfo :=
  listedImages.foldl (matchImage parsedRepos) Slice.nil

/-! ## The matcher as the specification words it -/

/-- The value bound to a key in a label map, if the map exists and has the key. -/
def labelLookup (m : Option (List (String × String))) (k : String) : Option String :=
  match m with
  | none => none
  | some kvs => kvs.lookup k

/-- The specification's `gitRef`: the value of the label `org.cyverse.git-ref`, else the
empty string. -/
def specGitRef (li : ImageSummary) : String :=
  match li.Labels with
  | none => ""
  | some kvs => (kvs.lookup "org.cyverse.git-ref").getD ""

/-- The specification's manifest entry for a record and one of its tags. -/
def specEntry (li : ImageSummary) (tag : String) : ImageInfo :=
  { RepoTag := tag, ImageID := li.ID, GitRef := specGitRef li }

/-- The reference definition of the matcher: over the records in order, over each record's
tags in order, over the requested references in order, one entry for each requested
reference equal to the tag. -/
def specEntries (I : List ImageSummary) (R : List String) : List ImageInfo :=
  I.flatMap fun li => li.RepoTags.flatMap fun tag => R.flatMap fun rt =>
    if rt = tag then [specEntry li tag] else []

/-- The (record, tag) pairs of an inventory, one per tag occurrence of each record, whose
tag is a member of the requested list. -/
def matchedPairs (I : List ImageSummary) (R : List String) : List (ImageSummary × String) :=
  I.flatMap fun li => (li.RepoTags.filter fun tag => tag ∈ R).map fun tag => (li, tag)

/-- The inventory of the specification's end-to-end scenario. -/
def exampleInventory : List ImageSummary :=
  [ { ID := "sha1", RepoTags := ["repo/x:v1", "repo/x:v2"], Labels := none },
    { ID := "sha2", RepoTags := ["repo/y:v1"],
      Labels := some [("org.cyverse.git-ref", "abcd")] } ]

/-- The requested references of the specification's end-to-end scenario. -/
def exampleRefs : List String := ["repo/x:v1", "repo/y:v1"]

/-! ## The serialized document (`main.go` lines 24-37 and 129-135) -/

/-- The JSON values `encoding/json` produces for `OutputMap`: objects keep the order of
their members. -/
inductive Json where
  | null : Json
  | str (s : String) : Json
  | arr (items : List Json) : Json
  | obj (members : List (String × Json)) : Json

/-- The encoding of an `ImageInfo`: its fields in declaration order under their `json`
tags. -/
def marshalImageInfo (e : ImageInfo) : Json :=
  Json.obj [("repo-tag", Json.str e.RepoTag), ("image-id", Json.str e.ImageID),
    ("git-ref", Json.str e.GitRef)]

/-- The encoding of a `[]ImageInfo`: `encoding/json` encodes a nil slice as `null` and any
other slice as an array. -/
def marshalImages : Slice ImageInfo → Json
  | Slice.nil => Json.null
  | Slice.mk xs => Json.arr (xs.map marshalImageInfo)

/-- The encoding of an `OutputMap`: its fields in declaration order under their `json`
tags. -/
def marshalOutputMap (o : OutputMap) : Json :=
  Json.obj [("hostname", Json.str o.Hostname), ("date", Json.str o.Date),
    ("images", marshalImages o.Images)]

/-! ## The run (`main.go` lines 81-148) -/

/-- The external calls `main` makes after parsing, as they appear in a run. -/
inductive Event where
  | pull (ref : String)
  | listImages
  | create (path : String)
  | write (doc : Json)

/-- The outcome of one pass through the acquisition loop body: both `ImagePull` and the copy
of its body succeed, or `ImagePull` returns an error, or the copy does. -/
inductive PullResult where
  | ok
  | pullError
  | copyError
  deriving DecidableEq

/-- The way the process ends: abnormally before reaching the end of `main` (`log.Fatal`, or
the deferred `Close` of the nil body of a failed pull), or by returning from `main`. -/
inductive Exit where
  | fatal
  | success
  deriving DecidableEq

/-- The outcomes of the external calls of one run: the pull of the reference at each
position of the list, the image listing (`none` for an error), the host name (`none` for
an error), the formatted time, and whether creating and writing the file succeed. -/
structure Env where
  pull : Nat → String → PullResult
  images : Option (List ImageSummary)
  hostname : Option String
  date : String
  createOk : Bool
  writeOk : Bool

/-- Lines 83-93: the acquisition loop from position `i` on; the calls made and whether the
loop ran to its end. When `ImagePull` returns an error the process ends at once, at the
`log.Fatal` of line 87 at the latest (the `defer` of line 85 on the nil body comes first);
when the copy of the body fails it ends at the `log.Fatal` of line 91. Closing the bodies
of earlier pulls is not an event of the model. -/
def pullAll (env : Env) : Nat → List String → List Event × Bool
  | _, [] => ([], true)
  | i, ref :: refs =>
    if env.pull i ref = PullResult.ok then
      (Event.pull ref :: (pullAll env (i + 1) refs).1, (pullAll env (i + 1) refs).2)
    else ([Event.pull ref], false)

/-- Lines 81-148: the calls `main` makes from the acquisition loop on, and how it ends. -/
def run (env : Env) (parsedRepos : List String) (outputPath : String) : List Event × Exit :=
  let pulled := pullAll env 0 parsedRepos
  if pulled.2 = false then (pulled.1, Exit.fatal)
  else
    match env.images with
    | none => (pulled.1 ++ [Event.listImages], Exit.fatal)
    | some listedImages =>
      let imageInfos := matchImages listedImages parsedRepos
      let hostname := env.hostname.getD ""
      let imgJSON :=
        marshalOutputMap { Hostname := hostname, Date := env.date, Images := imageInfos }
      if env.createOk = false then
        (pulled.1 ++ [Event.listImages, Event.create outputPath], Exit.fatal)
      else if env.writeOk = false then
        (pulled.1 ++ [Event.listImages, Event.create outputPath, Event.write imgJSON],
          Exit.fatal)
      else
        (pulled.1 ++ [Event.listImages, Event.create outputPath, Event.write imgJSON],
          Exit.success)

/-- A run in which the pull at position 1 (the second reference) fails. -/
def failSecond : Env :=
  { pull := fun i _ => if i = 1 then PullResult.pullError else PullResult.ok
    images := some exampleInventory
    hostname := some "host"
    date := "2006-01-02T15:04:05-07:00"
    createOk := true
    writeOk := true }

/-! ## The CSV reader behind `parseRepoTags` (Go `encoding/csv`, default settings) -/

namespace Csv

/-- The kinds of `csv.ParseError` the reader reports (line and column are not modelled). -/
inductive ParseErr where
  | ErrBareQuote
  | ErrQuote
  | ErrFieldCount
  deriving DecidableEq

/-- The state of a `csv.Reader` over a string: the text not yet read and `FieldsPerRecord`
(0 until the first record sets it). -/
structure Reader where
  input : List Char
  FieldsPerRecord : Nat
  deriving DecidableEq

/-- The reader's `lengthNL`: 1 when the line ends in a line feed, else 0. -/
def lengthNL (b : List Char) : Nat :=
  if b.getLast? = some '\n' then 1 else 0

/-- The buffered `ReadSlice` up to a line feed: the text up to and including the first line
feed, the text after it, and whether the end of input was hit before a line feed. -/
def readSlice : List Char → List Char × List Char × Bool
  | [] => ([], [], true)
  | c :: cs =>
    if c = '\n' then ([c], cs, false)
    else
      let (line, rest, eof) := readSlice cs
      (c :: line, rest, eof)

/-- The reader's `readLine` drops a carriage return that ends the last, unterminated
line. -/
def dropFinalCR (line : List Char) : List Char :=
  if line.getLast? = some '\r' then line.dropLast else line

/-- The reader's `readLine` turns a final carriage return and line feed into a line
feed. -/
def foldCRLF (line : List Char) : List Char :=
  let n := line.length
  if line.drop (n - 2) = ['\r', '\n'] then line.take (n - 2) ++ ['\n'] else line

/-- The reader's `readLine`: the next line, whether it reports the end of input (only when
nothing was read), and the text left. -/
def readLine (input : List Char) : List Char × Bool × List Char :=
  let (line, rest, eof) := readSlice input
  if 0 < line.length ∧ eof then
    (foldCRLF (dropFinalCR line), false, rest)
  else
    (foldCRLF line, eof, rest)

/-- Go's index-and-slice idiom on a line: the text before the first `sep` and the text
after it, when `sep` occurs. -/
def cut (sep : Char) : List Char → Option (List Char × List Char)
  | [] => none
  | c :: cs =>
    if c = sep then some ([], cs)
    else
      match cut sep cs with
      | some (before, after) => some (c :: before, after)
      | none => none

/-- Where the field loop of `readRecord` stands: at the start of a field, or inside a quoted
field whose text so far is `cur`. -/
inductive Mode where
  | field
  | quoted (cur : List Char)
  deriving DecidableEq

/-- The field loop of `readRecord` (the loop labelled `parseField`) on the rest of the
current line and the unread input: the fields of the record and the input left, or the
parse error. `none` is the model running out of fuel. The underlying reader only ever
reports the end of input, which the loop clears, so no read error is carried. -/
def parseFields : Nat → Mode → List Char → List Char → List (List Char) →
    Option (Except ParseErr (List (List Char) × List Char))
  | 0, _, _, _, _ => none
  | fuel + 1, Mode.field, line, rest, fields =>
    if line.head? = some '"' then
      parseFields fuel (Mode.quoted []) line.tail rest fields
    else
      match cut ',' line with
      | some (field, after) =>
        if '"' ∈ field then some (Except.error ParseErr.ErrBareQuote)
        else parseFields fuel Mode.field after rest (fields ++ [field])
      | none =>
        let field := line.take (line.length - lengthNL line)
        if '"' ∈ field then some (Except.error ParseErr.ErrBareQuote)
        else some (Except.ok (fields ++ [field], rest))
  | fuel + 1, Mode.quoted cur, line, rest, fields =>
    match cut '"' line with
    | some (before, after) =>
      if after.head? = some '"' then
        parseFields fuel (Mode.quoted (cur ++ before ++ ['"'])) after.tail rest fields
      else if after.head? = some ',' then
        parseFields fuel Mode.field after.tail rest (fields ++ [cur ++ before])
      else if lengthNL after = after.length then
        some (Except.ok (fields ++ [cur ++ before], rest))
      else some (Except.error ParseErr.ErrQuote)
    | none =>
      if 0 < line.length then
        parseFields fuel (Mode.quoted (cur ++ line)) (readLine rest).1 (readLine rest).2.2
          fields
      else some (Except.error ParseErr.ErrQuote)

/-- The first loop of `readRecord`: read lines, skipping empty ones, until a non-empty line
or the end of input. `none` is the model running out of fuel. -/
def nextLine : Nat → List Char → Option (List Char × Bool × List Char)
  | 0, _ => none
  | fuel + 1, input =>
    if (readLine input).2.1 = false ∧ (readLine input).1.length = lengthNL (readLine input).1
    then nextLine fuel (readLine input).2.2
    else some (readLine input)

/-- What one `Read` gives `parseRepoTags`: `io.EOF`, a parse error, or a record together
with the reader's new state. -/
inductive ReadResult where
  | eof
  | fail (e : ParseErr)
  | record (fields : List (List Char)) (r : Reader)
  deriving DecidableEq

/-- One call of `Read`, that is `readRecord`: skip empty lines, parse the fields, then check
or set `FieldsPerRecord`. `none` is the model running out of fuel. -/
def readRecord (r : Reader) : Option ReadResult :=
  match nextLine (r.input.length + 1) r.input with
  | none => none
  | some (line, eof, rest) =>
    if eof then some ReadResult.eof
    else
      match parseFields (line.length + rest.length + 1) Mode.field line rest [] with
      | none => none
      | some (Except.error e) => some (ReadResult.fail e)
      | some (Except.ok (dst, rest')) =>
        if 0 < r.FieldsPerRecord then
          if dst.length ≠ r.FieldsPerRecord then some (ReadResult.fail ParseErr.ErrFieldCount)
          else some (ReadResult.record dst ⟨rest', r.FieldsPerRecord⟩)
        else some (ReadResult.record dst ⟨rest', dst.length⟩)

end Csv

/-! ## `parseRepoTags` (`main.go` lines 39-55) -/

/-- Lines 42-53: the loop of `parseRepoTags`. It returns the pair `(repoTags, nil)` at the
end of input and `(nil, err)` at the first error. `none` is the model running out of
fuel. -/
def parseLoop : Nat → Csv.Reader → Slice String → Option (Slice String × Option Csv.ParseErr)
  | 0, _, _ => none
  | fuel + 1, reader, repoTags =>
    match Csv.readRecord reader with
    | none => none
    | some Csv.ReadResult.eof => some (repoTags, none)
    | some (Csv.ReadResult.fail e) => some (Slice.nil, some e)
    | some (Csv.ReadResult.record fields reader') =>
      parseLoop fuel reader' (fields.foldl (fun acc f => acc.append (String.mk f)) repoTags)

/-- Lines 39-55: `parseRepoTags`, with fuel for one more `Read` than the input has
characters; `parseRepoTags_total` shows this is always enough. -/
def parseRepoTags (input : String) : Option (Slice String × Option Csv.ParseErr) :=
  parseLoop (input.length + 1) ⟨input.data, 0⟩ Slice.nil

/-! ## Comma-separated text, for stating what `parseRepoTags` returns -/

namespace Csv

/-- The parity a mode adds to the number of double quotes still to be read: inside a quoted
field the opening quote has been consumed. -/
def modeBit : Mode → Nat
  | Mode.field => 0
  | Mode.quoted _ => 1

/-- The field loop, started in `mode` on the text `s` that the reader still has to cut into
lines, returns `res` when given enough fuel. -/
def ParsesTo (mode : Mode) (s : List Char) (fields : List (List Char))
    (res : Except ParseErr (List (List Char) × List Char)) : Prop :=
  ∃ fuel, parseFields fuel mode (readSlice s).1 (readSlice s).2.1 fields = some res

/-- The end of `readRecord` once the fields `dst` were parsed with `rest` left to read: the
check against `FieldsPerRecord`, or its initialisation. -/
def afterRecord (fpr : Nat) (dst : List (List Char)) (rest : List Char) : ReadResult :=
  if 0 < fpr then
    if dst.length ≠ fpr then ReadResult.fail ParseErr.ErrFieldCount
    else ReadResult.record dst ⟨rest, fpr⟩
  else ReadResult.record dst ⟨rest, dst.length⟩

/-- One field of a comma-separated text: written bare, or written between double quotes. -/
inductive Cell where
  | plain (text : String)
  | quoted (text : String)
  deriving DecidableEq

/-- The value a field stands for. -/
def Cell.value : Cell → String
  | Cell.plain t => t
  | Cell.quoted t => t

/-- Standard CSV escaping inside a quoted field: every double quote is doubled. -/
def escapeChars : List Char → List Char
  | [] => []
  | c :: cs => if c = '"' then '"' :: '"' :: escapeChars cs else c :: escapeChars cs

/-- The text of a field: a bare field is its value, a quoted field is its escaped value
between double quotes. -/
def Cell.chars : Cell → List Char
  | Cell.plain t => t.data
  | Cell.quoted t => '"' :: (escapeChars t.data ++ ['"'])

/-- The texts of a list joined by a separator character. -/
def joinChars (sep : Char) : List (List Char) → List Char
  | [] => []
  | [a] => a
  | a :: b :: rest => a ++ sep :: joinChars sep (b :: rest)

/-- A well-formed field: a bare field holds no comma, double quote, line feed or carriage
return; a quoted field holds no carriage return (the reader rewrites a carriage return
before a line feed). -/
def Cell.WellFormed : Cell → Prop
  | Cell.plain t => ',' ∉ t.data ∧ '"' ∉ t.data ∧ '\n' ∉ t.data ∧ '\r' ∉ t.data
  | Cell.quoted t => '\r' ∉ t.data

/-- The text of a list of rows: fields joined by commas, rows joined by line feeds. -/
def rowsChars (rows : List (List Cell)) : List Char :=
  joinChars '\n' (rows.map fun row => joinChars ',' (row.map Cell.chars))

/-- The text of a comma-separated document: its rows, one per line, with or without a line
feed after the last row. -/
def render (rows : List (List Cell)) (finalNewline : Bool) : String :=
  String.mk (rowsChars rows ++ if finalNewline then ['\n'] else [])

end Csv

/-! ## The matcher: lemmas -/

theorem Slice.toList_append {α : Type} (s : Slice α) (x : α) :
    (s.append x).toList = s.toList ++ [x] := by
  cases s <;> simp [Slice.append, Slice.toList]

theorem Slice.grown_append {α : Type} (s : Slice α) (x : α) : (s.append x).Grown := by
  cases s <;> simp [Slice.append, Slice.Grown]

theorem Slice.grown_nil {α : Type} : (Slice.nil : Slice α).Grown := by
  simp [Slice.Grown]

/-- Two slices grown from nil are equal as soon as they hold the same elements. -/
theorem Slice.eq_of_toList {α : Type} {s t : Slice α} (hs : s.Grown) (ht : t.Grown)
    (h : s.toList = t.toList) : s = t := by
  cases s <;> cases t <;> simp_all [Slice.toList, Slice.Grown]

theorem gitRefOf_eq_spec (li : ImageSummary) : gitRefOf li = specGitRef li := by
  unfold gitRefOf specGitRef mapIndex mapIndexOk
  cases li.Labels with
  | none => simp
  | some kvs => cases h : kvs.lookup "org.cyverse.git-ref" <;> simp [h]

theorem matchTag_toList (R : List String) (li : ImageSummary) (acc : Slice ImageInfo) (tag : String) :
    (matchTag R li acc tag).toList
      = acc.toList ++ R.flatMap fun rt => if rt = tag then [specEntry li tag] else [] := by
  unfold matchTag
  induction R generalizing acc with
  | nil => simp
  | cons rt R ih =>
    rw [List.foldl_cons, ih]
    by_cases h : tag = rt
    · subst h; simp [Slice.toList_append, specEntry, gitRefOf_eq_spec]
    · have h' : ¬ rt = tag := fun e => h e.symm
      simp [h, h']

theorem matchImage_toList (R : List String) (acc : Slice ImageInfo) (li : ImageSummary) :
    (matchImage R acc li).toList
      = acc.toList ++ li.RepoTags.flatMap fun tag => R.flatMap fun rt =>
          if rt = tag then [specEntry li tag] else [] := by
  unfold matchImage
  induction li.RepoTags generalizing acc with
  | nil => simp
  | cons t ts ih => rw [List.foldl_cons, ih, matchTag_toList]; simp

theorem matchImages_fold_toList (R : List String) (acc : Slice ImageInfo) (I : List ImageSummary) :
    (I.foldl (matchImage R) acc).toList = acc.toList ++ specEntries I R := by
  induction I generalizing acc with
  | nil => simp [specEntries]
  | cons li I ih =>
    rw [List.foldl_cons, ih, matchImage_toList]
    simp [specEntries]

/-- The elements of `imageInfos` after the loop are the reference entries. -/
theorem matchImages_toList (I : List ImageSummary) (R : List String) :
    (matchImages I R).toList = specEntries I R := by
  unfold matchImages
  rw [matchImages_fold_toList]; simp [Slice.toList]

theorem matchTag_grown (R : List String) (li : ImageSummary) (acc : Slice ImageInfo) (tag : String)
    (h : acc.Grown) : (matchTag R li acc tag).Grown := by
  unfold matchTag
  induction R generalizing acc with
  | nil => simpa using h
  | cons rt R ih =>
    rw [List.foldl_cons]
    apply ih
    split
    · exact Slice.grown_append _ _
    · exact h

theorem matchImage_grown (R : List String) (acc : Slice ImageInfo) (li : ImageSummary)
    (h : acc.Grown) : (matchImage R acc li).Grown := by
  unfold matchImage
  induction li.RepoTags generalizing acc with
  | nil => simpa using h
  | cons t ts ih => rw [List.foldl_cons]; exact ih _ (matchTag_grown R li acc t h)

/-- The loop never leaves an allocated empty slice: `imageInfos` is nil or non-empty. -/
theorem matchImages_grown (I : List ImageSummary) (R : List String) : (matchImages I R).Grown := by
  unfold matchImages
  suffices h : ∀ acc : Slice ImageInfo, acc.Grown → (I.foldl (matchImage R) acc).Grown from
    h _ Slice.grown_nil
  induction I with
  | nil => intro acc h; simpa using h
  | cons li I ih => intro acc h; rw [List.foldl_cons]; exact ih _ (matchImage_grown R acc li h)

/-- Each (record, tag) pair contributes as many copies of its entry as the tag occurs in
the requested list. -/
theorem specEntries_eq_replicate (I : List ImageSummary) (R : List String) :
    specEntries I R = I.flatMap fun li => li.RepoTags.flatMap fun tag =>
      List.replicate (R.count tag) (specEntry li tag) := by
  unfold specEntries
  congr 1; funext li; congr 1; funext tag
  induction R with
  | nil => simp
  | cons rt R ih =>
    rw [List.flatMap_cons, ih, List.count_cons]
    by_cases h : rt = tag
    · subst h; simp [List.replicate_succ]
    · simp [h]

theorem length_specEntries (I : List ImageSummary) (R : List String) :
    (specEntries I R).length
      = (I.flatMap fun li => li.RepoTags.map fun tag => R.count tag).sum := by
  rw [specEntries_eq_replicate]
  induction I with
  | nil => simp
  | cons li I ih =>
    simp only [List.flatMap_cons, List.length_append, List.sum_append, ih]
    congr 1
    induction li.RepoTags with
    | nil => simp
    | cons t ts ih2 => simp [ih2]

theorem length_matchedPairs (I : List ImageSummary) (R : List String) (h : R.Nodup) :
    (I.flatMap fun li => li.RepoTags.map fun tag => R.count tag).sum = (matchedPairs I R).length := by
  unfold matchedPairs
  induction I with
  | nil => simp
  | cons li I ih =>
    simp only [List.flatMap_cons, List.length_append, List.sum_append, ih]
    congr 1
    induction li.RepoTags with
    | nil => simp
    | cons t ts ih2 =>
      by_cases ht : t ∈ R
      · simp [ht, ih2, List.count_eq_one_of_mem h ht]; omega
      · simp [ht, ih2, List.count_eq_zero_of_not_mem ht]

theorem mem_specEntries {I : List ImageSummary} {R : List String} {e : ImageInfo} :
    e ∈ specEntries I R ↔ ∃ li ∈ I, ∃ tag ∈ li.RepoTags, tag ∈ R ∧ e = specEntry li tag := by
  unfold specEntries
  simp only [List.mem_flatMap]
  constructor
  · rintro ⟨li, hli, tag, htag, rt, hrt, he⟩
    by_cases h : rt = tag
    · subst h; simp at he; exact ⟨li, hli, rt, htag, hrt, he⟩
    · simp [h] at he
  · rintro ⟨li, hli, tag, htag, hR, he⟩
    exact ⟨li, hli, tag, htag, tag, hR, by simp [he]⟩

theorem gitRefOf_eq_lookup (li : ImageSummary) :
    gitRefOf li = (labelLookup li.Labels "org.cyverse.git-ref").getD "" := by
  unfold gitRefOf labelLookup mapIndex mapIndexOk
  cases li.Labels with
  | none => simp
  | some kvs => cases h : kvs.lookup "org.cyverse.git-ref" <;> simp [h]

/-- The acquisition loop stops at the first failing pull. -/
theorem pullAll_fail (env : Env) (i : Nat) (refs : List String) (k : Nat) (ref : String)
    (hk : refs[k]? = some ref)
    (hok : ∀ j r, j < k → refs[j]? = some r → env.pull (i + j) r = PullResult.ok)
    (hfail : env.pull (i + k) ref ≠ PullResult.ok) :
    pullAll env i refs = ((refs.take (k + 1)).map Event.pull, false) := by
  induction refs generalizing i k with
  | nil => simp at hk
  | cons a refs ih =>
    cases k with
    | zero =>
      simp at hk
      subst hk
      unfold pullAll
      simp only [Nat.add_zero] at hfail
      simp [hfail]
    | succ k =>
      have h0 := hok 0 a (Nat.succ_pos _) (by simp)
      simp only [Nat.add_zero] at h0
      have hk' : refs[k]? = some ref := by simpa using hk
      have := ih (i + 1) k hk'
        (fun j r hj hr => by
          have := hok (j + 1) r (by omega) (by simpa using hr)
          rwa [show i + (j + 1) = i + 1 + j by omega] at this)
        (by rwa [show i + (k + 1) = i + 1 + k by omega] at hfail)
      unfold pullAll
      simp [h0, this]

/-- The acquisition loop pulls every reference when no pull fails. -/
theorem pullAll_ok (env : Env) (i : Nat) (refs : List String)
    (hok : ∀ j r, refs[j]? = some r → env.pull (i + j) r = PullResult.ok) :
    pullAll env i refs = (refs.map Event.pull, true) := by
  induction refs generalizing i with
  | nil => rfl
  | cons a refs ih =>
    have h0 := hok 0 a (by simp)
    simp only [Nat.add_zero] at h0
    have := ih (i + 1) (fun j r hr => by
      have := hok (j + 1) r (by simpa using hr)
      rwa [show i + (j + 1) = i + 1 + j by omega] at this)
    unfold pullAll
    simp [h0, this]

/-! ## The CSV reader: lemmas -/

namespace Csv

theorem readSlice_append (s : List Char) : (readSlice s).1 ++ (readSlice s).2.1 = s := by
  induction s with
  | nil => simp [readSlice]
  | cons c cs ih =>
    unfold readSlice
    by_cases h : c = '\n'
    · simp [h]
    · simp [h, ih]

theorem readSlice_eof_true (s : List Char) (h : (readSlice s).2.2 = true) :
    (readSlice s).1 = s ∧ (readSlice s).2.1 = [] := by
  induction s with
  | nil => simp [readSlice]
  | cons c cs ih =>
    unfold readSlice at h ⊢
    by_cases hc : c = '\n'
    · simp [hc] at h
    · simp only [hc, if_false] at h ⊢
      simpa using ih h

theorem readSlice_eof_false (s : List Char) (h : (readSlice s).2.2 = false) :
    0 < (readSlice s).1.length := by
  cases s with
  | nil => simp [readSlice] at h
  | cons c cs =>
    unfold readSlice
    by_cases hc : c = '\n' <;> simp [hc]

theorem count_dropFinalCR (line : List Char) :
    (dropFinalCR line).count '"' = line.count '"' := by
  unfold dropFinalCR
  split
  · next h =>
    obtain ⟨ys, rfl⟩ := List.getLast?_eq_some_iff.mp h
    simp [List.count_append]
  · rfl

theorem length_dropFinalCR (line : List Char) : (dropFinalCR line).length ≤ line.length := by
  unfold dropFinalCR
  split <;> simp

theorem count_foldCRLF (line : List Char) : (foldCRLF line).count '"' = line.count '"' := by
  unfold foldCRLF
  simp only
  split
  · next h =>
    conv_rhs => rw [← List.take_append_drop (line.length - 2) line, h]
    simp [List.count_append]
  · rfl

theorem length_foldCRLF (line : List Char) : (foldCRLF line).length ≤ line.length := by
  unfold foldCRLF
  simp only
  split
  · next h =>
    have h2 := congrArg List.length h
    simp at h2
    simp
    omega
  · exact Nat.le_refl _

/-- What `readLine` preserves: it never lengthens the text, keeps the number of double
quotes, reports the end of input only on empty input, and consumes a character
otherwise. -/
theorem readLine_spec (s : List Char) :
    (readLine s).1.length + (readLine s).2.2.length ≤ s.length ∧
    (readLine s).1.count '"' + (readLine s).2.2.count '"' = s.count '"' ∧
    ((readLine s).2.1 = true → s = []) ∧
    (s ≠ [] → (readLine s).2.2.length < s.length) := by
  have happ := readSlice_append s
  have hlen := congrArg List.length happ
  have hcnt := congrArg (List.count '"') happ
  simp only [List.length_append, List.count_append] at hlen hcnt
  unfold readLine
  rcases hrs : readSlice s with ⟨line, rest, eof⟩
  rw [hrs] at happ hlen hcnt
  simp only at happ hlen hcnt ⊢
  cases eof with
  | true =>
    have h1 := readSlice_eof_true s (by rw [hrs])
    rw [hrs] at h1
    simp only at h1
    obtain ⟨h1, h2⟩ := h1
    subst h1 h2
    by_cases hl : 0 < line.length
    · simp only [hl, and_self, if_true]
      have := length_foldCRLF (dropFinalCR line)
      have := length_dropFinalCR line
      refine ⟨by simp; omega, by simp [count_foldCRLF, count_dropFinalCR], by simp, ?_⟩
      intro _; simpa using hl
    · have : line = [] := by simpa using hl
      subst this
      simp [foldCRLF]
  | false =>
    have h1 := readSlice_eof_false s (by rw [hrs])
    rw [hrs] at h1
    simp only at h1
    simp only [Bool.false_eq_true, and_false, if_false]
    have := length_foldCRLF line
    refine ⟨by omega, by rw [count_foldCRLF]; omega, by simp, ?_⟩
    intro _; omega

theorem cut_some {sep : Char} {l b a : List Char} (h : cut sep l = some (b, a)) :
    l = b ++ sep :: a ∧ sep ∉ b := by
  induction l generalizing b with
  | nil => simp [cut] at h
  | cons c cs ih =>
    unfold cut at h
    by_cases hc : c = sep
    · simp [hc] at h
      obtain ⟨rfl, rfl⟩ := h
      simp [hc]
    · simp only [hc, if_false] at h
      cases hcut : cut sep cs with
      | none => simp [hcut] at h
      | some p =>
        obtain ⟨b', a'⟩ := p
        simp [hcut] at h
        obtain ⟨rfl, rfl⟩ := h
        obtain ⟨h1, h2⟩ := ih hcut
        refine ⟨by simp [h1], ?_⟩
        simp only [List.mem_cons, not_or]
        exact ⟨fun e => hc e.symm, h2⟩

theorem cut_none {sep : Char} {l : List Char} (h : cut sep l = none) : sep ∉ l := by
  induction l with
  | nil => simp
  | cons c cs ih =>
    unfold cut at h
    by_cases hc : c = sep
    · simp [hc] at h
    · simp only [hc, if_false] at h
      cases hcut : cut sep cs with
      | none =>
        simp only [List.mem_cons, not_or]
        exact ⟨fun e => hc e.symm, ih hcut⟩
      | some p => simp [hcut] at h

theorem count_of_length_eq_lengthNL {l : List Char} (h : l.length = lengthNL l) :
    l.count '"' = 0 := by
  unfold lengthNL at h
  split at h
  · next hl =>
    obtain ⟨ys, rfl⟩ := List.getLast?_eq_some_iff.mp hl
    simp at h
    subst h
    decide
  · have : l = [] := by simpa using h
    subst this; rfl

theorem count_take_lengthNL (l : List Char) :
    (l.take (l.length - lengthNL l)).count '"' = l.count '"' := by
  unfold lengthNL
  split
  · next hl =>
    obtain ⟨ys, rfl⟩ := List.getLast?_eq_some_iff.mp hl
    simp [List.count_append]
  · simp

/-- With more fuel than characters, `nextLine` returns; the skipped lines hold no double
quote, and a line that is returned without end of input has consumed a character. -/
theorem nextLine_spec (fuel : Nat) (s : List Char) (h : s.length < fuel) :
    ∃ line eof rest, nextLine fuel s = some (line, eof, rest) ∧
      line.length + rest.length ≤ s.length ∧
      line.count '"' + rest.count '"' = s.count '"' ∧
      (eof = false → rest.length < s.length) ∧
      (eof = true → s.count '"' = 0) := by
  induction fuel generalizing s with
  | zero => omega
  | succ fuel ih =>
    unfold nextLine
    obtain ⟨h1, h2, h3, h4⟩ := readLine_spec s
    split
    · next hc =>
      have hs : s ≠ [] := by
        intro e; subst e
        simp [readLine, readSlice, foldCRLF] at hc
      have hlt := h4 hs
      obtain ⟨line, eof, rest, e1, e2, e3, e4, e5⟩ := ih (readLine s).2.2 (by omega)
      have := count_of_length_eq_lengthNL hc.2
      exact ⟨line, eof, rest, e1, by omega, by omega, fun he => by have := e4 he; omega,
        fun he => by have := e5 he; omega⟩
    · next hc =>
      refine ⟨(readLine s).1, (readLine s).2.1, (readLine s).2.2, rfl, h1, h2, ?_, ?_⟩
      · intro he
        apply h4
        intro e; subst e
        simp [readLine, readSlice, foldCRLF] at he
      · intro he
        rw [h3 he]; rfl

theorem head_eq_some_iff {l : List Char} {c : Char} :
    l.head? = some c ↔ l = c :: l.tail := by
  cases l <;> simp

/-- With more fuel than characters left, the field loop returns, and a record that parses
has consumed an even number of double quotes (counting the opening quote of the field the
loop is in). -/
theorem parseFields_spec (fuel : Nat) (mode : Mode) (line rest : List Char)
    (fields : List (List Char)) (h : line.length + rest.length < fuel) :
    ∃ r, parseFields fuel mode line rest fields = some r ∧
      ∀ dst rest', r = Except.ok (dst, rest') →
        rest'.length ≤ rest.length ∧
        (line.count '"' + rest.count '"' + modeBit mode) % 2 = rest'.count '"' % 2 := by
  induction fuel generalizing mode line rest fields with
  | zero => omega
  | succ fuel ih =>
    cases mode with
    | field =>
      unfold parseFields
      by_cases hq : line.head? = some '"'
      · simp only [hq, if_true]
        have hl := head_eq_some_iff.mp hq
        have hlen : line.length = line.tail.length + 1 := by
          conv_lhs => rw [hl]
          simp
        have hcnt : line.count '"' = line.tail.count '"' + 1 := by
          conv_lhs => rw [hl]
          simp
        obtain ⟨r, hr, hp⟩ := ih (Mode.quoted []) line.tail rest fields (by omega)
        refine ⟨r, hr, ?_⟩
        intro dst rest' e
        obtain ⟨p1, p2⟩ := hp dst rest' e
        refine ⟨p1, ?_⟩
        simp only [modeBit] at p2 ⊢
        omega
      · simp only [hq, if_false]
        cases hcut : cut ',' line with
        | some p =>
          obtain ⟨field, after⟩ := p
          simp only
          obtain ⟨hl, -⟩ := cut_some hcut
          by_cases hf : '"' ∈ field
          · simp only [hf, if_true]
            exact ⟨_, rfl, by intro dst rest' e; cases e⟩
          · simp only [hf, if_false]
            have hlen : line.length = field.length + after.length + 1 := by
              rw [hl]; simp; omega
            have hcnt : line.count '"' = after.count '"' := by
              rw [hl, List.count_append, List.count_eq_zero_of_not_mem hf]
              simp
            obtain ⟨r, hr, hp⟩ := ih Mode.field after rest (fields ++ [field]) (by omega)
            refine ⟨r, hr, ?_⟩
            intro dst rest' e
            obtain ⟨p1, p2⟩ := hp dst rest' e
            exact ⟨p1, by rw [hcnt]; exact p2⟩
        | none =>
          simp only
          by_cases hf : '"' ∈ line.take (line.length - lengthNL line)
          · simp only [hf, if_true]
            exact ⟨_, rfl, by intro dst rest' e; cases e⟩
          · simp only [hf, if_false]
            refine ⟨_, rfl, ?_⟩
            intro dst rest' e
            simp only [Except.ok.injEq, Prod.mk.injEq] at e
            obtain ⟨-, rfl⟩ := e
            have := count_take_lengthNL line
            rw [List.count_eq_zero_of_not_mem hf] at this
            simp only [modeBit]
            exact ⟨Nat.le_refl _, by omega⟩
    | quoted cur =>
      unfold parseFields
      cases hcut : cut '"' line with
      | some p =>
        obtain ⟨before, after⟩ := p
        simp only
        obtain ⟨hl, hnb⟩ := cut_some hcut
        have hlen : line.length = before.length + after.length + 1 := by
          rw [hl]; simp; omega
        have hcnt : line.count '"' = after.count '"' + 1 := by
          rw [hl, List.count_append, List.count_eq_zero_of_not_mem hnb]
          simp
        by_cases h1 : after.head? = some '"'
        · simp only [h1, if_true]
          have ha := head_eq_some_iff.mp h1
          have halen : after.length = after.tail.length + 1 := by
            conv_lhs => rw [ha]
            simp
          have hacnt : after.count '"' = after.tail.count '"' + 1 := by
            conv_lhs => rw [ha]
            simp
          obtain ⟨r, hr, hp⟩ := ih (Mode.quoted (cur ++ before ++ ['"'])) after.tail rest fields
            (by omega)
          refine ⟨r, hr, ?_⟩
          intro dst rest' e
          obtain ⟨p1, p2⟩ := hp dst rest' e
          refine ⟨p1, ?_⟩
          simp only [modeBit] at p2 ⊢
          omega
        · simp only [h1, if_false]
          by_cases h2 : after.head? = some ','
          · simp only [h2, if_true]
            have ha := head_eq_some_iff.mp h2
            have halen : after.length = after.tail.length + 1 := by
              conv_lhs => rw [ha]
              simp
            have hacnt : after.count '"' = after.tail.count '"' := by
              conv_lhs => rw [ha]
              simp
            obtain ⟨r, hr, hp⟩ := ih Mode.field after.tail rest (fields ++ [cur ++ before])
              (by omega)
            refine ⟨r, hr, ?_⟩
            intro dst rest' e
            obtain ⟨p1, p2⟩ := hp dst rest' e
            refine ⟨p1, ?_⟩
            simp only [modeBit] at p2 ⊢
            omega
          · simp only [h2, if_false]
            by_cases h3 : lengthNL after = after.length
            · simp only [h3, if_true]
              refine ⟨_, rfl, ?_⟩
              intro dst rest' e
              simp only [Except.ok.injEq, Prod.mk.injEq] at e
              obtain ⟨-, rfl⟩ := e
              have := count_of_length_eq_lengthNL h3.symm
              simp only [modeBit]
              exact ⟨Nat.le_refl _, by omega⟩
            · simp only [h3, if_false]
              exact ⟨_, rfl, by intro dst rest' e; cases e⟩
      | none =>
        simp only
        have hnq := cut_none hcut
        by_cases hpos : 0 < line.length
        · simp only [hpos, if_true]
          obtain ⟨l1, l2, -, -⟩ := readLine_spec rest
          obtain ⟨r, hr, hp⟩ := ih (Mode.quoted (cur ++ line)) (readLine rest).1 (readLine rest).2.2
            fields (by omega)
          refine ⟨r, hr, ?_⟩
          intro dst rest' e
          obtain ⟨p1, p2⟩ := hp dst rest' e
          refine ⟨by omega, ?_⟩
          rw [List.count_eq_zero_of_not_mem hnq]
          simp only [modeBit] at p2 ⊢
          omega
        · simp only [hpos, if_false]
          exact ⟨_, rfl, by intro dst rest' e; cases e⟩

theorem parseFields_succ (fuel : Nat) (mode : Mode) (line rest : List Char)
    (fields : List (List Char)) (r : Except ParseErr (List (List Char) × List Char))
    (h : parseFields fuel mode line rest fields = some r) :
    parseFields (fuel + 1) mode line rest fields = some r := by
  induction fuel generalizing mode line rest fields with
  | zero => simp [parseFields] at h
  | succ fuel ih =>
    cases mode with
    | field =>
      unfold parseFields at h ⊢
      split
      · next hq => rw [if_pos hq] at h; exact ih _ _ _ _ h
      · next hq =>
        rw [if_neg hq] at h
        split
        · next field after hcut =>
          rw [hcut] at h
          simp only at h
          split
          · next hf => rw [if_pos hf] at h; exact h
          · next hf => rw [if_neg hf] at h; exact ih _ _ _ _ h
        · next hcut =>
          rw [hcut] at h
          exact h
    | quoted cur =>
      unfold parseFields at h ⊢
      split
      · next before after hcut =>
        rw [hcut] at h
        simp only at h
        split
        · next h1 => rw [if_pos h1] at h; exact ih _ _ _ _ h
        · next h1 =>
          rw [if_neg h1] at h
          split
          · next h2 => rw [if_pos h2] at h; exact ih _ _ _ _ h
          · next h2 => rw [if_neg h2] at h; exact h
      · next hcut =>
        rw [hcut] at h
        simp only at h
        split
        · next hp => rw [if_pos hp] at h; exact ih _ _ _ _ h
        · next hp => rw [if_neg hp] at h; exact h

/-- More fuel does not change what the field loop returns. -/
theorem parseFields_mono {n m : Nat} (hnm : n ≤ m) (mode : Mode) (line rest : List Char)
    (fields : List (List Char)) (r : Except ParseErr (List (List Char) × List Char))
    (h : parseFields n mode line rest fields = some r) :
    parseFields m mode line rest fields = some r := by
  induction hnm with
  | refl => exact h
  | step _ ih => exact parseFields_succ _ _ _ _ _ _ ih

theorem readSlice_cons_ne {c : Char} (hc : c ≠ '\n') (s : List Char) :
    readSlice (c :: s) = (c :: (readSlice s).1, (readSlice s).2.1, (readSlice s).2.2) := by
  conv_lhs => unfold readSlice
  simp [hc]

theorem readSlice_nl (s : List Char) : readSlice ('\n' :: s) = (['\n'], s, false) := by
  unfold readSlice
  simp

theorem readSlice_append_ne {p : List Char} (hp : '\n' ∉ p) (s : List Char) :
    readSlice (p ++ s) = (p ++ (readSlice s).1, (readSlice s).2.1, (readSlice s).2.2) := by
  induction p with
  | nil => simp
  | cons c p ih =>
    simp only [List.mem_cons, not_or] at hp
    rw [List.cons_append, readSlice_cons_ne (fun e => hp.1 e.symm), ih hp.2]
    simp

theorem foldCRLF_of_not_mem {l : List Char} (h : '\r' ∉ l) : foldCRLF l = l := by
  unfold foldCRLF
  simp only
  split
  · next hd =>
    exfalso
    apply h
    have : '\r' ∈ l.drop (l.length - 2) := by rw [hd]; simp
    exact List.mem_of_mem_drop this
  · rfl

theorem dropFinalCR_of_not_mem {l : List Char} (h : '\r' ∉ l) : dropFinalCR l = l := by
  unfold dropFinalCR
  split
  · next hd =>
    exfalso
    apply h
    obtain ⟨ys, rfl⟩ := List.getLast?_eq_some_iff.mp hd
    simp
  · rfl

theorem readLine_of_not_mem {s : List Char} (h : '\r' ∉ s) :
    (readLine s).1 = (readSlice s).1 ∧ (readLine s).2.2 = (readSlice s).2.1 ∧
    (s ≠ [] → (readLine s).2.1 = false) := by
  have happ := readSlice_append s
  have hl : '\r' ∉ (readSlice s).1 := by
    intro hm
    apply h
    rw [← happ]
    exact List.mem_append_left _ hm
  unfold readLine
  rcases hrs : readSlice s with ⟨line, rest, eof⟩
  rw [hrs] at hl happ
  simp only at hl happ ⊢
  split
  · next hc =>
    simp [foldCRLF_of_not_mem, dropFinalCR_of_not_mem, hl]
  · next hc =>
    simp only [foldCRLF_of_not_mem hl, true_and]
    intro hs
    cases eof with
    | false => rfl
    | true =>
      exfalso
      have h1 := readSlice_eof_true s (by rw [hrs])
      rw [hrs] at h1
      simp only at h1
      apply hc
      refine ⟨?_, rfl⟩
      rw [h1.1]
      exact List.length_pos.mpr hs

theorem cut_append_of_not_mem {sep : Char} {p : List Char} (hp : sep ∉ p) (s : List Char) :
    cut sep (p ++ sep :: s) = some (p, s) := by
  induction p with
  | nil => simp [cut]
  | cons c p ih =>
    simp only [List.mem_cons, not_or] at hp
    rw [List.cons_append]
    have hne : ¬ c = sep := fun e => hp.1 e.symm
    unfold cut
    simp [hne, ih hp.2]

theorem cut_eq_none_of_not_mem {sep : Char} {p : List Char} (hp : sep ∉ p) :
    cut sep p = none := by
  induction p with
  | nil => simp [cut]
  | cons c p ih =>
    simp only [List.mem_cons, not_or] at hp
    have hne : ¬ c = sep := fun e => hp.1 e.symm
    unfold cut
    simp [hne, ih hp.2]

theorem head_append_ne {p s : List Char} {c d : Char} (hp : c ∉ p) (hcd : c ≠ d) :
    (p ++ d :: s).head? ≠ some c := by
  cases p with
  | nil => simpa using fun e => hcd e.symm
  | cons x p =>
    simp only [List.mem_cons, not_or] at hp
    simpa using fun e => hp.1 e.symm

theorem lengthNL_of_not_mem {p : List Char} (hp : '\n' ∉ p) : lengthNL p = 0 := by
  unfold lengthNL
  split
  · next h =>
    exfalso; apply hp
    obtain ⟨ys, rfl⟩ := List.getLast?_eq_some_iff.mp h
    simp
  · rfl

theorem lengthNL_concat (p : List Char) : lengthNL (p ++ ['\n']) = 1 := by
  simp [lengthNL]

theorem readSlice_line_ne_nil {s : List Char} (hs : s ≠ []) : (readSlice s).1 ≠ [] := by
  cases s with
  | nil => exact absurd rfl hs
  | cons c s =>
    unfold readSlice
    by_cases hc : c = '\n' <;> simp [hc]

theorem head_ne_of_not_mem {p : List Char} {c : Char} (hp : c ∉ p) : p.head? ≠ some c := by
  cases p with
  | nil => simp
  | cons x p =>
    simp only [List.mem_cons, not_or] at hp
    simpa using fun e => hp.1 e.symm

theorem parsesTo_openQuote {s : List Char} {fields : List (List Char)}
    {r : Except ParseErr (List (List Char) × List Char)}
    (h : ParsesTo (Mode.quoted []) s fields r) : ParsesTo Mode.field ('"' :: s) fields r := by
  obtain ⟨n, hn⟩ := h
  refine ⟨n + 1, ?_⟩
  rw [readSlice_cons_ne (by decide)]
  unfold parseFields
  simpa using hn

theorem parsesTo_quotedChar {c : Char} (hq : c ≠ '"') (hn : c ≠ '\n') {s : List Char}
    (hs : s ≠ []) {cur : List Char} {fields : List (List Char)}
    {r : Except ParseErr (List (List Char) × List Char)}
    (h : ParsesTo (Mode.quoted (cur ++ [c])) s fields r) :
    ParsesTo (Mode.quoted cur) (c :: s) fields r := by
  obtain ⟨n, h⟩ := h
  refine ⟨n, ?_⟩
  rw [readSlice_cons_ne hn]
  have hl := readSlice_line_ne_nil hs
  cases n with
  | zero => simp [parseFields] at h
  | succ n =>
    unfold parseFields at h ⊢
    simp only
    conv_lhs => unfold cut
    simp only [hq, if_false]
    cases hcut : cut '"' (readSlice s).1 with
    | some p =>
      obtain ⟨b, a⟩ := p
      rw [hcut] at h
      simpa using h
    | none =>
      rw [hcut] at h
      have hpos : 0 < (readSlice s).1.length := List.length_pos.mpr hl
      simp only [hpos, if_true] at h
      simpa using h

theorem parsesTo_quotedNewline {s : List Char} (hs : '\r' ∉ s) {cur : List Char}
    {fields : List (List Char)} {r : Except ParseErr (List (List Char) × List Char)}
    (h : ParsesTo (Mode.quoted (cur ++ ['\n'])) s fields r) :
    ParsesTo (Mode.quoted cur) ('\n' :: s) fields r := by
  obtain ⟨n, h⟩ := h
  refine ⟨n + 1, ?_⟩
  rw [readSlice_nl]
  obtain ⟨e1, e2, -⟩ := readLine_of_not_mem hs
  unfold parseFields
  simp [cut, e1, e2, h]

theorem parsesTo_escapedQuote {s : List Char} {cur : List Char}
    {fields : List (List Char)} {r : Except ParseErr (List (List Char) × List Char)}
    (h : ParsesTo (Mode.quoted (cur ++ ['"'])) s fields r) :
    ParsesTo (Mode.quoted cur) ('"' :: '"' :: s) fields r := by
  obtain ⟨n, h⟩ := h
  refine ⟨n + 1, ?_⟩
  rw [readSlice_cons_ne (by decide), readSlice_cons_ne (by decide)]
  unfold parseFields
  simp [cut, h]

theorem parsesTo_closeComma {s : List Char} {cur : List Char}
    {fields : List (List Char)} {r : Except ParseErr (List (List Char) × List Char)}
    (h : ParsesTo Mode.field s (fields ++ [cur]) r) :
    ParsesTo (Mode.quoted cur) ('"' :: ',' :: s) fields r := by
  obtain ⟨n, h⟩ := h
  refine ⟨n + 1, ?_⟩
  rw [readSlice_cons_ne (by decide), readSlice_cons_ne (by decide)]
  unfold parseFields
  simp [cut, h]

theorem parsesTo_closeNewline (more : List Char) (cur : List Char) (fields : List (List Char)) :
    ParsesTo (Mode.quoted cur) ('"' :: '\n' :: more) fields
      (Except.ok (fields ++ [cur], more)) := by
  refine ⟨1, ?_⟩
  rw [readSlice_cons_ne (by decide), readSlice_nl]
  unfold parseFields
  simp [cut, lengthNL]

theorem parsesTo_closeEnd (cur : List Char) (fields : List (List Char)) :
    ParsesTo (Mode.quoted cur) ['"'] fields (Except.ok (fields ++ [cur], [])) := by
  refine ⟨1, ?_⟩
  unfold parseFields
  simp [cut, lengthNL, readSlice]

theorem parsesTo_plainComma {p : List Char} (h1 : ',' ∉ p) (h2 : '"' ∉ p) (h3 : '\n' ∉ p)
    {s : List Char} {fields : List (List Char)}
    {r : Except ParseErr (List (List Char) × List Char)}
    (h : ParsesTo Mode.field s (fields ++ [p]) r) :
    ParsesTo Mode.field (p ++ ',' :: s) fields r := by
  obtain ⟨n, h⟩ := h
  refine ⟨n + 1, ?_⟩
  rw [readSlice_append_ne h3, readSlice_cons_ne (by decide)]
  unfold parseFields
  simp only
  rw [if_neg (head_append_ne h2 (by decide)), cut_append_of_not_mem h1]
  simp only [h2, if_false]
  exact h

theorem parsesTo_plainNewline {p : List Char} (h1 : ',' ∉ p) (h2 : '"' ∉ p) (h3 : '\n' ∉ p)
    (more : List Char) (fields : List (List Char)) :
    ParsesTo Mode.field (p ++ '\n' :: more) fields (Except.ok (fields ++ [p], more)) := by
  refine ⟨1, ?_⟩
  rw [readSlice_append_ne h3, readSlice_nl]
  unfold parseFields
  simp only
  have hc : ',' ∉ p ++ ['\n'] := by simp [h1]
  rw [if_neg (head_append_ne h2 (by decide)), cut_eq_none_of_not_mem hc]
  simp [lengthNL_concat, h2]

theorem parsesTo_plainEnd {p : List Char} (h1 : ',' ∉ p) (h2 : '"' ∉ p) (h3 : '\n' ∉ p)
    (fields : List (List Char)) :
    ParsesTo Mode.field p fields (Except.ok (fields ++ [p], [])) := by
  refine ⟨1, ?_⟩
  have := readSlice_append_ne h3 []
  simp only [List.append_nil] at this
  rw [this]
  unfold parseFields
  simp only [readSlice, List.append_nil]
  rw [if_neg (head_ne_of_not_mem h2), cut_eq_none_of_not_mem h1]
  simp [lengthNL_of_not_mem h3, h2]

theorem cr_not_mem_escapeChars {l : List Char} (h : '\r' ∉ l) : '\r' ∉ escapeChars l := by
  induction l with
  | nil => simp [escapeChars]
  | cons d l ihl =>
    simp only [List.mem_cons, not_or] at h
    unfold escapeChars
    split
    · simp only [List.mem_cons, not_or]
      exact ⟨by decide, by decide, ihl h.2⟩
    · simp only [List.mem_cons, not_or]
      exact ⟨h.1, ihl h.2⟩

theorem cr_not_mem_chars {c : Cell} (h : c.WellFormed) : '\r' ∉ c.chars := by
  cases c with
  | plain t => exact h.2.2.2
  | quoted t =>
    have h : '\r' ∉ t.data := h
    simp only [Cell.chars, List.mem_cons, List.mem_append, not_or, List.mem_singleton]
    exact ⟨by decide, cr_not_mem_escapeChars h, by simp⟩

theorem cr_not_mem_joinChars {sep : Char} (hsep : sep ≠ '\r') {ls : List (List Char)}
    (h : ∀ l ∈ ls, '\r' ∉ l) : '\r' ∉ joinChars sep ls := by
  induction ls with
  | nil => simp [joinChars]
  | cons a ls ih =>
    cases ls with
    | nil => simpa [joinChars] using h a (List.mem_cons_self _ _)
    | cons b ls =>
      simp only [joinChars, List.mem_append, List.mem_cons, not_or]
      exact ⟨h a (List.mem_cons_self _ _), fun e => hsep e.symm,
        ih fun l hl => h l (List.mem_cons_of_mem _ hl)⟩

theorem cr_not_mem_row {cells : List Cell} (hwf : ∀ c ∈ cells, c.WellFormed) :
    '\r' ∉ joinChars ',' (cells.map Cell.chars) := by
  apply cr_not_mem_joinChars (by decide)
  intro l hl
  obtain ⟨c, hc, rfl⟩ := List.mem_map.mp hl
  exact cr_not_mem_chars (hwf c hc)

/-- Inside a quoted field, reading the escaped text of `q` up to the closing quote adds `q`
to the field. -/
theorem parsesTo_quotedText (q : List Char) (hq : '\r' ∉ q) (X : List Char) (hX : '\r' ∉ X)
    (cur : List Char) (fields : List (List Char))
    (r : Except ParseErr (List (List Char) × List Char))
    (h : ParsesTo (Mode.quoted (cur ++ q)) ('"' :: X) fields r) :
    ParsesTo (Mode.quoted cur) (escapeChars q ++ '"' :: X) fields r := by
  induction q generalizing cur with
  | nil => simpa [escapeChars] using h
  | cons c q ih =>
    simp only [List.mem_cons, not_or] at hq
    have h' : ParsesTo (Mode.quoted (cur ++ [c] ++ q)) ('"' :: X) fields r := by
      simpa using h
    have ih' := ih hq.2 (cur ++ [c]) h'
    have hcr : '\r' ∉ escapeChars q ++ '"' :: X := by
      simp only [List.mem_append, List.mem_cons, not_or]
      exact ⟨cr_not_mem_escapeChars hq.2, by decide, hX⟩
    unfold escapeChars
    by_cases hc : c = '"'
    · subst hc
      simp only [if_true, List.cons_append]
      exact parsesTo_escapedQuote ih'
    · simp only [hc, if_false, List.cons_append]
      by_cases hn : c = '\n'
      · subst hn
        exact parsesTo_quotedNewline hcr ih'
      · exact parsesTo_quotedChar hc hn (by simp) ih'

/-- The field loop on the text of a row of well-formed fields, at the end of input or
before a line feed, returns the values of the fields and leaves what follows the line
feed. -/
theorem parsesTo_row (cells : List Cell) (hne : cells ≠ []) (hwf : ∀ c ∈ cells, c.WellFormed)
    (fields : List (List Char)) :
    ParsesTo Mode.field (joinChars ',' (cells.map Cell.chars)) fields
      (Except.ok (fields ++ cells.map fun c => c.value.data, [])) ∧
    ∀ more, '\r' ∉ more →
      ParsesTo Mode.field (joinChars ',' (cells.map Cell.chars) ++ '\n' :: more) fields
        (Except.ok (fields ++ cells.map fun c => c.value.data, more)) := by
  induction cells generalizing fields with
  | nil => exact absurd rfl hne
  | cons c cs ih =>
    have hc := hwf c (List.mem_cons_self _ _)
    cases cs with
    | nil =>
      cases c with
      | plain t =>
        obtain ⟨h1, h2, h3, -⟩ := hc
        exact ⟨by simpa [joinChars, Cell.chars, Cell.value] using parsesTo_plainEnd h1 h2 h3 fields,
          fun more _ => by
            simpa [joinChars, Cell.chars, Cell.value] using parsesTo_plainNewline h1 h2 h3 more fields⟩
      | quoted t =>
        have hc : '\r' ∉ t.data := hc
        constructor
        · have := parsesTo_quotedText t.data hc [] (by simp) [] fields _
            (by simpa using parsesTo_closeEnd t.data fields)
          simpa [joinChars, Cell.chars, Cell.value] using parsesTo_openQuote this
        · intro more hmore
          have := parsesTo_quotedText t.data hc ('\n' :: more)
            (by simp only [List.mem_cons, not_or]; exact ⟨by decide, hmore⟩) [] fields _
            (by simpa using parsesTo_closeNewline more t.data fields)
          simpa [joinChars, Cell.chars, Cell.value] using parsesTo_openQuote this
    | cons c' cs =>
      have hwf' : ∀ x ∈ c' :: cs, x.WellFormed := fun x hx => hwf x (List.mem_cons_of_mem _ hx)
      have ih1 := fun f => ih (by simp) hwf' f
      have hrow := cr_not_mem_row hwf'
      cases c with
      | plain t =>
        obtain ⟨h1, h2, h3, -⟩ := hc
        constructor
        · have := parsesTo_plainComma h1 h2 h3 (ih1 (fields ++ [t.data])).1
          simpa [joinChars, Cell.chars, Cell.value] using this
        · intro more hmore
          have := parsesTo_plainComma h1 h2 h3 ((ih1 (fields ++ [t.data])).2 more hmore)
          simpa [joinChars, Cell.chars, Cell.value] using this
      | quoted t =>
        have hc : '\r' ∉ t.data := hc
        constructor
        · have := parsesTo_quotedText t.data hc (',' :: joinChars ',' ((c' :: cs).map Cell.chars))
            (by simp only [List.mem_cons, not_or]; exact ⟨by decide, hrow⟩) [] fields _
            (by simpa using parsesTo_closeComma (ih1 (fields ++ [t.data])).1)
          simpa [joinChars, Cell.chars, Cell.value] using parsesTo_openQuote this
        · intro more hmore
          have := parsesTo_quotedText t.data hc
            (',' :: (joinChars ',' ((c' :: cs).map Cell.chars) ++ '\n' :: more))
            (by
              simp only [List.mem_cons, List.mem_append, not_or]
              exact ⟨by decide, hrow, by decide, hmore⟩) [] fields _
            (by simpa using parsesTo_closeComma ((ih1 (fields ++ [t.data])).2 more hmore))
          simpa [joinChars, Cell.chars, Cell.value] using parsesTo_openQuote this

theorem parseFields_of_parsesTo {mode : Mode} {s : List Char} {fields : List (List Char)}
    {res : Except ParseErr (List (List Char) × List Char)} (h : ParsesTo mode s fields res)
    (fuel : Nat) (hf : (readSlice s).1.length + (readSlice s).2.1.length < fuel) :
    parseFields fuel mode (readSlice s).1 (readSlice s).2.1 fields = some res := by
  obtain ⟨n, hn⟩ := h
  obtain ⟨r, hr, -⟩ := parseFields_spec fuel mode (readSlice s).1 (readSlice s).2.1 fields hf
  have h1 := parseFields_mono (Nat.le_max_left n fuel) _ _ _ _ _ hn
  have h2 := parseFields_mono (Nat.le_max_right n fuel) _ _ _ _ _ hr
  rw [h1] at h2
  rw [hr, ← Option.some.inj h2]

theorem length_ne_lengthNL {c : Char} (hc : c ≠ '\n') (l : List Char) :
    (c :: l).length ≠ lengthNL (c :: l) := by
  unfold lengthNL
  split
  · next h =>
    cases l with
    | nil => simp at h; exact absurd h hc
    | cons d l => simp
  · simp

theorem row_head {cells : List Cell} (hne : cells ≠ []) (hwf : ∀ c ∈ cells, c.WellFormed)
    (hblank : cells ≠ [Cell.plain ""]) :
    ∃ c s, joinChars ',' (cells.map Cell.chars) = c :: s ∧ c ≠ '\n' := by
  cases cells with
  | nil => exact absurd rfl hne
  | cons x xs =>
    have hx := hwf x (List.mem_cons_self _ _)
    cases x with
    | quoted t =>
      cases xs with
      | nil => exact ⟨'"', _, rfl, by decide⟩
      | cons y ys => exact ⟨'"', _, rfl, by decide⟩
    | plain t =>
      obtain ⟨-, -, h3, -⟩ := hx
      obtain ⟨data⟩ := t
      cases data with
      | nil =>
        cases xs with
        | nil => exact absurd rfl hblank
        | cons y ys => exact ⟨',', _, rfl, by decide⟩
      | cons d ds =>
        simp only [List.mem_cons, not_or] at h3
        cases xs with
        | nil => exact ⟨d, _, rfl, fun e => h3.1 e.symm⟩
        | cons y ys => exact ⟨d, _, rfl, fun e => h3.1 e.symm⟩

/-- One `Read` on text free of carriage returns whose first line is not empty: the record
the field loop returns, passed through the field count check. -/
theorem readRecord_of_parsesTo {s : List Char} (hcr : '\r' ∉ s) {c : Char} {s' : List Char}
    (hs : s = c :: s') (hc : c ≠ '\n') {dst : List (List Char)} {more : List Char}
    (h : ParsesTo Mode.field s [] (Except.ok (dst, more))) (fpr : Nat) :
    readRecord ⟨s, fpr⟩ = some (afterRecord fpr dst more) := by
  obtain ⟨e1, e2, e3⟩ := readLine_of_not_mem hcr
  have e3 := e3 (by rw [hs]; simp)
  have hline : (readSlice s).1 = c :: (readSlice s').1 := by
    rw [hs, readSlice_cons_ne hc]
  have hnb : (readLine s).1.length ≠ lengthNL (readLine s).1 := by
    rw [e1, hline]; exact length_ne_lengthNL hc _
  unfold readRecord
  simp only
  conv_lhs => unfold nextLine
  simp only [e3, hnb, and_false, if_false]
  rw [e1, e2, parseFields_of_parsesTo h _ (Nat.lt_succ_self _)]
  simp only [Bool.false_eq_true, if_false, afterRecord]
  split <;> [split; skip] <;> rfl

/-- One `Read` always returns in the model; at the end of input no double quote was left,
and a record consumes at least one character and an even number of double quotes. -/
theorem readRecord_spec (r : Reader) :
    ∃ res, readRecord r = some res ∧
      (res = ReadResult.eof → r.input.count '"' = 0) ∧
      ∀ fields r', res = ReadResult.record fields r' →
        r'.input.length < r.input.length ∧
        r.input.count '"' % 2 = r'.input.count '"' % 2 := by
  unfold readRecord
  obtain ⟨line, eof, rest, e1, e2, e3, e4, e5⟩ :=
    nextLine_spec (r.input.length + 1) r.input (Nat.lt_succ_self _)
  rw [e1]
  simp only
  cases eof with
  | true =>
    simp only [if_true]
    exact ⟨_, rfl, fun _ => e5 rfl, by intro f r' e; cases e⟩
  | false =>
    simp only [Bool.false_eq_true, if_false]
    obtain ⟨pr, hpr, hp⟩ := parseFields_spec (line.length + rest.length + 1) Mode.field line rest []
      (Nat.lt_succ_self _)
    rw [hpr]
    have e4 := e4 rfl
    cases pr with
    | error e =>
      exact ⟨_, rfl, (by intro e; cases e), by intro f r' e; cases e⟩
    | ok p =>
      obtain ⟨dst, rest'⟩ := p
      obtain ⟨p1, p2⟩ := hp dst rest' rfl
      simp only [modeBit, Nat.add_zero] at p2
      by_cases hf : 0 < r.FieldsPerRecord
      · simp only [hf, if_true]
        by_cases hn : dst.length ≠ r.FieldsPerRecord
        · simp only [hn, ne_eq, not_false_eq_true, if_true]
          exact ⟨_, rfl, (by intro e; cases e), by intro f r' e; cases e⟩
        · simp only [hn, if_false]
          refine ⟨_, rfl, (by intro e; cases e), ?_⟩
          intro f r' e
          simp only [ReadResult.record.injEq] at e
          obtain ⟨-, rfl⟩ := e
          simp only
          exact ⟨by omega, by omega⟩
      · simp only [hf, if_false]
        refine ⟨_, rfl, (by intro e; cases e), ?_⟩
        intro f r' e
        simp only [ReadResult.record.injEq] at e
        obtain ⟨-, rfl⟩ := e
        simp only
        exact ⟨by omega, by omega⟩

theorem count_escapeChars (l : List Char) : (escapeChars l).count '"' % 2 = 0 := by
  induction l with
  | nil => rfl
  | cons c l ih =>
    unfold escapeChars
    by_cases hc : c = '"'
    · subst hc
      simp only [if_true, List.count_cons_self]
      omega
    · simp only [hc, if_false]
      rw [List.count_cons_of_ne (fun e => hc e.symm)]
      exact ih

end Csv

/-! ## `parseRepoTags`: lemmas -/

/-- With more fuel than characters, the loop of `parseRepoTags` returns; it succeeds only
on input with an even number of double quotes, and an error comes with the nil slice. -/
theorem parseLoop_spec (fuel : Nat) (reader : Csv.Reader) (repoTags : Slice String)
    (h : reader.input.length < fuel) :
    ∃ res, parseLoop fuel reader repoTags = some res ∧
      (res.2 = none → reader.input.count '"' % 2 = 0) ∧
      (res.2 ≠ none → res.1 = Slice.nil) := by
  induction fuel generalizing reader repoTags with
  | zero => omega
  | succ fuel ih =>
    unfold parseLoop
    obtain ⟨rr, hrr, h1, h2⟩ := Csv.readRecord_spec reader
    rw [hrr]
    cases rr with
    | eof =>
      simp only
      exact ⟨_, rfl, fun _ => by rw [h1 rfl], by simp⟩
    | fail e =>
      simp only
      exact ⟨_, rfl, by simp, by simp⟩
    | record fields r' =>
      simp only
      obtain ⟨q1, q2⟩ := h2 fields r' rfl
      obtain ⟨res, hres, p1, p2⟩ := ih r'
        (fields.foldl (fun acc f => acc.append (String.mk f)) repoTags) (by omega)
      exact ⟨res, hres, fun e => by rw [q2]; exact p1 e, p2⟩

/-- The fuel `parseRepoTags` supplies is always enough: the model never runs dry. -/
theorem parseRepoTags_total (input : String) : ∃ res, parseRepoTags input = some res := by
  obtain ⟨res, h, -⟩ := parseLoop_spec (input.length + 1) ⟨input.data, 0⟩ Slice.nil
    (Nat.lt_succ_self _)
  exact ⟨res, h⟩

/-- An input with an odd number of double quotes is rejected, and nothing is returned with
the error. -/
theorem parseRepoTags_odd_quotes (input : String) (h : input.data.count '"' % 2 = 1) :
    ∃ e, parseRepoTags input = some (Slice.nil, some e) := by
  obtain ⟨res, hres, p1, p2⟩ := parseLoop_spec (input.length + 1) ⟨input.data, 0⟩ Slice.nil
    (Nat.lt_succ_self _)
  obtain ⟨s, err⟩ := res
  cases err with
  | none =>
    have := p1 rfl
    simp only at this
    omega
  | some e =>
    have := p2 (by simp)
    simp only at this
    subst this
    exact ⟨e, hres⟩

theorem Slice.appendList_append {α : Type} (s : Slice α) (xs ys : List α) :
    (s.appendList xs).appendList ys = s.appendList (xs ++ ys) := by
  simp [Slice.appendList]

theorem Slice.appendList_cons {α : Type} (s : Slice α) (x : α) (xs : List α) :
    s.appendList (x :: xs) = (s.append x).appendList xs := rfl

theorem Slice.append_mk_appendList {α : Type} (ys : List α) (xs : List α) :
    (Slice.mk ys).appendList xs = Slice.mk (ys ++ xs) := by
  induction xs generalizing ys with
  | nil => simp [Slice.appendList]
  | cons x xs ih => rw [Slice.appendList_cons, Slice.append, ih]; simp

theorem Slice.nil_appendList {α : Type} (x : α) (xs : List α) :
    (Slice.nil : Slice α).appendList (x :: xs) = Slice.mk (x :: xs) := by
  rw [Slice.appendList_cons, Slice.append, Slice.append_mk_appendList]; simp

theorem parseLoop_succ (fuel : Nat) (reader : Csv.Reader) (repoTags : Slice String)
    (res : Slice String × Option Csv.ParseErr)
    (h : parseLoop fuel reader repoTags = some res) :
    parseLoop (fuel + 1) reader repoTags = some res := by
  induction fuel generalizing reader repoTags with
  | zero => simp [parseLoop] at h
  | succ fuel ih =>
    unfold parseLoop at h ⊢
    cases hr : Csv.readRecord reader with
    | none => rw [hr] at h; simp at h
    | some rr =>
      rw [hr] at h
      cases rr with
      | eof => exact h
      | fail e => exact h
      | record fields r' => exact ih _ _ h

theorem parseLoop_mono {n m : Nat} (hnm : n ≤ m) (reader : Csv.Reader) (repoTags : Slice String)
    (res : Slice String × Option Csv.ParseErr)
    (h : parseLoop n reader repoTags = some res) :
    parseLoop m reader repoTags = some res := by
  induction hnm with
  | refl => exact h
  | step _ ih => exact parseLoop_succ _ _ _ _ ih

theorem parseLoop_of_exists {reader : Csv.Reader} {repoTags : Slice String}
    {res : Slice String × Option Csv.ParseErr}
    (h : ∃ n, parseLoop n reader repoTags = some res) :
    parseLoop (reader.input.length + 1) reader repoTags = some res := by
  obtain ⟨n, hn⟩ := h
  obtain ⟨r, hr, -⟩ := parseLoop_spec (reader.input.length + 1) reader repoTags
    (Nat.lt_succ_self _)
  have h1 := parseLoop_mono (Nat.le_max_left n (reader.input.length + 1)) _ _ _ hn
  have h2 := parseLoop_mono (Nat.le_max_right n (reader.input.length + 1)) _ _ _ hr
  rw [h1] at h2
  rw [hr, ← Option.some.inj h2]

theorem readRecord_nil (fpr : Nat) : Csv.readRecord ⟨[], fpr⟩ = some Csv.ReadResult.eof := by
  simp [Csv.readRecord, Csv.nextLine, Csv.readLine, Csv.readSlice, Csv.foldCRLF]

theorem foldl_append_values (acc : Slice String) (cells : List Csv.Cell) :
    (cells.map fun c => c.value.data).foldl (fun acc f => acc.append (String.mk f)) acc
      = acc.appendList (cells.map Csv.Cell.value) := by
  unfold Slice.appendList
  induction cells generalizing acc with
  | nil => rfl
  | cons c cs ih => simp only [List.map_cons, List.foldl_cons]; exact ih _

theorem cr_not_mem_rowsChars {rows : List (List Csv.Cell)}
    (hwf : ∀ row ∈ rows, ∀ c ∈ row, c.WellFormed) : '\r' ∉ Csv.rowsChars rows := by
  apply Csv.cr_not_mem_joinChars (by decide)
  intro l hl
  obtain ⟨row, hrow, rfl⟩ := List.mem_map.mp hl
  exact Csv.cr_not_mem_row (hwf row hrow)

theorem parseLoop_record {s : List Char} {fpr : Nat} {acc : Slice String}
    {cells : List Csv.Cell} {more : List Char} {w : Nat}
    (hr : Csv.readRecord ⟨s, fpr⟩
      = some (Csv.ReadResult.record (cells.map fun c => c.value.data) ⟨more, w⟩))
    {res : Slice String × Option Csv.ParseErr}
    (h : ∃ n, parseLoop n ⟨more, w⟩ (acc.appendList (cells.map Csv.Cell.value)) = some res) :
    ∃ n, parseLoop n ⟨s, fpr⟩ acc = some res := by
  obtain ⟨n, hn⟩ := h
  refine ⟨n + 1, ?_⟩
  unfold parseLoop
  rw [hr]
  simp only
  rw [foldl_append_values]
  exact hn

theorem parseLoop_nil (fpr : Nat) (acc : Slice String) :
    ∃ n, parseLoop n ⟨[], fpr⟩ acc = some (acc, none) := by
  refine ⟨1, ?_⟩
  unfold parseLoop
  rw [readRecord_nil]

/-- The loop of `parseRepoTags` on the text of well-formed rows of equal width appends the
values of all fields, in order. -/
theorem parseLoop_rows (w : Nat) (hw : 0 < w) (rows : List (List Csv.Cell)) (hne : rows ≠ [])
    (hwf : ∀ row ∈ rows, ∀ c ∈ row, c.WellFormed) (hlen : ∀ row ∈ rows, row.length = w)
    (hblank : ∀ row ∈ rows, row ≠ [Csv.Cell.plain ""])
    (final : List Char) (hfinal : final = [] ∨ final = ['\n'])
    (fpr : Nat) (hfpr : fpr = 0 ∨ fpr = w) (acc : Slice String) :
    ∃ n, parseLoop n ⟨Csv.rowsChars rows ++ final, fpr⟩ acc
      = some (acc.appendList (rows.flatMap fun row => row.map Csv.Cell.value), none) := by
  induction rows generalizing fpr acc with
  | nil => exact absurd rfl hne
  | cons row rows ih =>
    have hrow_wf := hwf row (List.mem_cons_self _ _)
    have hrow_len := hlen row (List.mem_cons_self _ _)
    have hrow_ne : row ≠ [] := by
      intro e; rw [e] at hrow_len; simp at hrow_len; omega
    obtain ⟨c, s0, hcs, hc⟩ := Csv.row_head hrow_ne hrow_wf (hblank row (List.mem_cons_self _ _))
    obtain ⟨p1, p2⟩ := Csv.parsesTo_row row hrow_ne hrow_wf []
    have hafter : ∀ more, Csv.afterRecord fpr (row.map fun c => c.value.data) more
        = Csv.ReadResult.record (row.map fun c => c.value.data) ⟨more, w⟩ := by
      intro more
      unfold Csv.afterRecord
      rcases hfpr with h0 | h0 <;> simp [h0, hrow_len, hw]
    cases rows with
    | nil =>
      have hgoal : ∀ s : List Char, Csv.readRecord ⟨s, fpr⟩
          = some (Csv.ReadResult.record (row.map fun c => c.value.data) ⟨[], w⟩) →
          ∃ n, parseLoop n ⟨s, fpr⟩ acc
            = some (acc.appendList (([row] : List (List Csv.Cell)).flatMap
                fun row => row.map Csv.Cell.value), none) := by
        intro s hs
        apply parseLoop_record hs
        simpa using parseLoop_nil w _
      rcases hfinal with hf | hf
      · subst hf
        apply hgoal
        have hs : Csv.rowsChars [row] ++ [] = c :: s0 := by
          simpa [Csv.rowsChars, Csv.joinChars] using hcs
        have hcr : '\r' ∉ Csv.rowsChars [row] ++ [] := by
          simpa using cr_not_mem_rowsChars hwf
        have hp : Csv.ParsesTo Csv.Mode.field (Csv.rowsChars [row] ++ []) []
            (Except.ok (row.map fun c => c.value.data, [])) := by
          simpa [Csv.rowsChars, Csv.joinChars] using p1
        rw [Csv.readRecord_of_parsesTo hcr hs hc hp fpr, hafter]
      · subst hf
        apply hgoal
        have hs : Csv.rowsChars [row] ++ ['\n'] = c :: (s0 ++ ['\n']) := by
          simp [Csv.rowsChars, Csv.joinChars, hcs]
        have hcr : '\r' ∉ Csv.rowsChars [row] ++ ['\n'] := by
          simp only [List.mem_append, not_or]
          exact ⟨cr_not_mem_rowsChars hwf, by decide⟩
        have hp : Csv.ParsesTo Csv.Mode.field (Csv.rowsChars [row] ++ ['\n']) []
            (Except.ok (row.map fun c => c.value.data, [])) := by
          simpa [Csv.rowsChars, Csv.joinChars] using p2 [] (by simp)
        rw [Csv.readRecord_of_parsesTo hcr hs hc hp fpr, hafter]
    | cons row' rows' =>
      have hwf' : ∀ r ∈ row' :: rows', ∀ c ∈ r, c.WellFormed :=
        fun r hr => hwf r (List.mem_cons_of_mem _ hr)
      have hmore : '\r' ∉ Csv.rowsChars (row' :: rows') ++ final := by
        simp only [List.mem_append, not_or]
        refine ⟨cr_not_mem_rowsChars hwf', ?_⟩
        rcases hfinal with hf | hf <;> subst hf
        · simp
        · decide
      have hsplit : Csv.rowsChars (row :: row' :: rows') ++ final
          = Csv.joinChars ',' (row.map Csv.Cell.chars)
              ++ '\n' :: (Csv.rowsChars (row' :: rows') ++ final) := by
        simp [Csv.rowsChars, Csv.joinChars]
      have hs : Csv.rowsChars (row :: row' :: rows') ++ final
          = c :: (s0 ++ '\n' :: (Csv.rowsChars (row' :: rows') ++ final)) := by
        rw [hsplit, hcs]; rfl
      have hcr : '\r' ∉ Csv.rowsChars (row :: row' :: rows') ++ final := by
        rw [hsplit]
        simp only [List.mem_append, List.mem_cons, not_or]
        have := Csv.cr_not_mem_row hrow_wf
        simp only [List.mem_append, not_or] at hmore
        exact ⟨this, by decide, hmore.1, hmore.2⟩
      have hp : Csv.ParsesTo Csv.Mode.field (Csv.rowsChars (row :: row' :: rows') ++ final) []
          (Except.ok (row.map fun c => c.value.data,
            Csv.rowsChars (row' :: rows') ++ final)) := by
        rw [hsplit]
        simpa using p2 _ hmore
      have hr := Csv.readRecord_of_parsesTo hcr hs hc hp fpr
      rw [hafter] at hr
      apply parseLoop_record hr
      have := ih (by simp) hwf' (fun r hr => hlen r (List.mem_cons_of_mem _ hr))
        (fun r hr => hblank r (List.mem_cons_of_mem _ hr)) w (Or.inr rfl)
        (acc.appendList (row.map Csv.Cell.value))
      rw [Slice.appendList_append] at this
      simpa using this

/-- On the text of one or more well-formed rows of equal width, none of them a blank line,
`parseRepoTags` returns the values of all fields in order and no error. -/
theorem parseRepoTags_render (rows : List (List Csv.Cell)) (finalNewline : Bool) (w : Nat)
    (hw : 0 < w) (hne : rows ≠ [])
    (hwf : ∀ row ∈ rows, ∀ c ∈ row, c.WellFormed) (hlen : ∀ row ∈ rows, row.length = w)
    (hblank : ∀ row ∈ rows, row ≠ [Csv.Cell.plain ""]) :
    parseRepoTags (Csv.render rows finalNewline)
      = some (Slice.mk (rows.flatMap fun row => row.map Csv.Cell.value), none) := by
  have h := parseLoop_rows w hw rows hne hwf hlen hblank (if finalNewline then ['\n'] else [])
    (by cases finalNewline <;> simp) 0 (Or.inl rfl) Slice.nil
  have h2 := parseLoop_of_exists h
  unfold parseRepoTags Csv.render
  simp only [String.length] at h2 ⊢
  rw [h2]
  cases rows with
  | nil => exact absurd rfl hne
  | cons row rows =>
    have hrow_len := hlen row (List.mem_cons_self _ _)
    cases row with
    | nil => simp at hrow_len; omega
    | cons c cs =>
      simp only [List.flatMap_cons, List.map_cons, List.cons_append]
      rw [Slice.nil_appendList]

theorem intercalate_go_data (acc sep : String) (l : List String) :
    (String.intercalate.go acc sep l).data
      = acc.data ++ l.flatMap fun a => sep.data ++ a.data := by
  induction l generalizing acc with
  | nil => simp [String.intercalate.go]
  | cons a l ih => simp [String.intercalate.go, ih]

theorem joinChars_cons (sep : Char) (a : List Char) (l : List (List Char)) :
    Csv.joinChars sep (a :: l) = a ++ l.flatMap fun b => sep :: b := by
  induction l generalizing a with
  | nil => simp [Csv.joinChars]
  | cons b l ih => simp [Csv.joinChars, ih]

/-- The characters of strings joined by a comma. -/
theorem intercalate_comma_data (l : List String) :
    (String.intercalate "," l).data = Csv.joinChars ',' (l.map String.data) := by
  cases l with
  | nil => rfl
  | cons a l =>
    rw [String.intercalate, intercalate_go_data, List.map_cons, joinChars_cons]
    congr 1
    induction l with
    | nil => rfl
    | cons b l ih =>
      simp only [List.flatMap_cons, List.map_cons, ih]
      rfl

/-! ## The claims -/

/-- C1: for every inventory and every requested list, the sequence the matching loop of
`main` emits is the reference definition `specEntries` (records in order, tags in order,
requested references in order, one entry per requested reference equal to the tag, with
`gitRef` the label `org.cyverse.git-ref` or the empty string); on the end-to-end scenario
it is exactly the two expected entries. -/
theorem matchImages_refines_spec :
    (∀ (I : List ImageSummary) (R : List String), (matchImages I R).toList = specEntries I R) ∧
    matchImages exampleInventory exampleRefs
      = Slice.mk [ { RepoTag := "repo/x:v1", ImageID := "sha1", GitRef := "" },
                   { RepoTag := "repo/y:v1", ImageID := "sha2", GitRef := "abcd" } ] :=
  ⟨matchImages_toList, by decide⟩

/-- C2, as stated, fails: with the requested list `["a", "a"]` and one record tagged `a`
the loop emits two entries, while one (record, tag) pair has its tag in the list. -/
theorem matchImages_count_counterexample :
    (matchImages [{ ID := "sha1", RepoTags := ["a"], Labels := none }] ["a", "a"]).toList.length
      ≠ (matchedPairs [{ ID := "sha1", RepoTags := ["a"], Labels := none }] ["a", "a"]).length := by
  decide

/-- C2, amended: the number of entries emitted is the sum, over the (record, tag) pairs of
the inventory, of the number of occurrences of the tag in the requested list; when the
requested list has no duplicates this is the number of pairs whose tag is in the list. -/
theorem matchImages_count (I : List ImageSummary) (R : List String) :
    (matchImages I R).toList.length
        = (I.flatMap fun li => li.RepoTags.map fun tag => R.count tag).sum ∧
    (R.Nodup → (matchImages I R).toList.length = (matchedPairs I R).length) := by
  rw [matchImages_toList, length_specEntries]
  exact ⟨rfl, fun h => length_matchedPairs I R h⟩

/-- C2, amended, on the end-to-end scenario (a requested list without duplicates). -/
theorem matchImages_count_witness :
    exampleRefs.Nodup ∧
    (matchImages exampleInventory exampleRefs).toList.length
      = (matchedPairs exampleInventory exampleRefs).length :=
  ⟨by decide, (matchImages_count exampleInventory exampleRefs).2 (by decide)⟩

/-- C3: every emitted entry has its `repoTag` in the requested list and comes from a record
of the inventory with the entry's `imageID` and that tag; if no tag of the inventory is
requested, nothing is emitted (`imageInfos` stays nil) and the loop has no error path. -/
theorem matchImages_sound (I : List ImageSummary) (R : List String) :
    (∀ e ∈ (matchImages I R).toList,
        e.RepoTag ∈ R ∧ ∃ li ∈ I, li.ID = e.ImageID ∧ e.RepoTag ∈ li.RepoTags) ∧
    ((∀ li ∈ I, ∀ tag ∈ li.RepoTags, tag ∉ R) → matchImages I R = Slice.nil) := by
  constructor
  · intro e he
    rw [matchImages_toList, mem_specEntries] at he
    obtain ⟨li, hli, tag, htag, hR, rfl⟩ := he
    exact ⟨hR, li, hli, rfl, htag⟩
  · intro h
    apply Slice.eq_of_toList (matchImages_grown I R) Slice.grown_nil
    rw [matchImages_toList]
    simp only [Slice.toList]
    apply List.eq_nil_iff_forall_not_mem.mpr
    intro e he
    rw [mem_specEntries] at he
    obtain ⟨li, hli, tag, htag, hR, -⟩ := he
    exact h li hli tag htag hR

/-- C3 on the end-to-end scenario, for the entry of the second record. -/
theorem matchImages_sound_witness :
    "repo/y:v1" ∈ exampleRefs ∧
    ∃ li ∈ exampleInventory, li.ID = "sha2" ∧ "repo/y:v1" ∈ li.RepoTags :=
  (matchImages_sound exampleInventory exampleRefs).1
    { RepoTag := "repo/y:v1", ImageID := "sha2", GitRef := "abcd" } (by decide)

/-- C4: for every entry appended while the loop visits a record, `gitRef` is the value
bound to `org.cyverse.git-ref` in the record's labels when the key is there (whatever the
value, the empty string included), and the empty string when the map is nil or lacks the
key; and the labels matter through that key only: a record whose labels agree on it emits
the same entries. -/
theorem gitRef_of_emitted (R : List String) (acc : Slice ImageInfo) (li : ImageSummary)
    (emitted : List ImageInfo) (hnew : (matchImage R acc li).toList = acc.toList ++ emitted)
    (e : ImageInfo) (he : e ∈ emitted) :
    (∀ v, labelLookup li.Labels "org.cyverse.git-ref" = some v → e.GitRef = v) ∧
    (labelLookup li.Labels "org.cyverse.git-ref" = none → e.GitRef = "") ∧
    (∀ labels, labelLookup labels "org.cyverse.git-ref"
        = labelLookup li.Labels "org.cyverse.git-ref" →
      matchImage R acc { li with Labels := labels } = matchImage R acc li) := by
  rw [matchImage_toList] at hnew
  have hnew := List.append_cancel_left hnew
  subst hnew
  simp only [List.mem_flatMap] at he
  obtain ⟨tag, -, rt, -, he⟩ := he
  have hg : e.GitRef = (labelLookup li.Labels "org.cyverse.git-ref").getD "" := by
    by_cases h : rt = tag
    · simp only [h, if_true, List.mem_singleton] at he
      rw [he, specEntry, ← gitRefOf_eq_spec, gitRefOf_eq_lookup]
    · simp [h] at he
  refine ⟨fun v hv => by rw [hg, hv]; rfl, fun hn => by rw [hg, hn]; rfl, ?_⟩
  intro labels hl
  have hgit : gitRefOf { li with Labels := labels } = gitRefOf li := by
    rw [gitRefOf_eq_lookup, gitRefOf_eq_lookup, hl]
  unfold matchImage matchTag
  simp only [hgit]

/-- C4 on the second record of the end-to-end scenario, whose label is `abcd`. -/
theorem gitRef_of_emitted_witness :
    ({ RepoTag := "repo/y:v1", ImageID := "sha2", GitRef := "abcd" } : ImageInfo).GitRef
      = "abcd" :=
  (gitRef_of_emitted exampleRefs Slice.nil
    { ID := "sha2", RepoTags := ["repo/y:v1"], Labels := some [("org.cyverse.git-ref", "abcd")] }
    [{ RepoTag := "repo/y:v1", ImageID := "sha2", GitRef := "abcd" }] (by decide)
    { RepoTag := "repo/y:v1", ImageID := "sha2", GitRef := "abcd" } (by decide)).1 "abcd"
    (by decide)

/-- C5, as stated, fails: parsing the two rows `a,b` and `,c` returns the four values
`a`, `b`, the empty string and `c`, not the three non-empty ones; and the well-formed rows
`a,b` and `c` are rejected for their differing field counts. -/
theorem parseRepoTags_keeps_empty_fields :
    parseRepoTags "a,b\n,c" = some (Slice.mk ["a", "b", "", "c"], none) ∧
    parseRepoTags "a,b\n,c" ≠ some (Slice.mk ["a", "b", "c"], none) ∧
    parseRepoTags "a,b\nc" = some (Slice.nil, some Csv.ParseErr.ErrFieldCount) := by
  decide

/-- C5, amended: for every text made of one or more rows that all have the same number
(at least one) of well-formed fields, bare or quoted, no row being a lone empty bare
field, with or without a final line feed, `parseRepoTags` succeeds and returns, in order,
the values of all fields of all rows, empty values included; `a,b` and `,c` is such a text
and yields `a`, `b`, the empty string, `c`. -/
theorem parseRepoTags_wellFormed :
    (∀ (rows : List (List Csv.Cell)) (finalNewline : Bool) (w : Nat), 0 < w → rows ≠ [] →
      (∀ row ∈ rows, ∀ c ∈ row, c.WellFormed) → (∀ row ∈ rows, row.length = w) →
      (∀ row ∈ rows, row ≠ [Csv.Cell.plain ""]) →
      parseRepoTags (Csv.render rows finalNewline)
        = some (Slice.mk (rows.flatMap fun row => row.map Csv.Cell.value), none)) ∧
    Csv.render [[Csv.Cell.plain "a", Csv.Cell.plain "b"],
                [Csv.Cell.plain "", Csv.Cell.plain "c"]] false = "a,b\n,c" ∧
    parseRepoTags "a,b\n,c" = some (Slice.mk ["a", "b", "", "c"], none) :=
  ⟨fun rows finalNewline w hw hne hwf hlen hblank =>
      parseRepoTags_render rows finalNewline w hw hne hwf hlen hblank,
    by decide, by decide⟩

/-- C5, amended, on two rows with a quoted field and a final line feed. -/
theorem parseRepoTags_wellFormed_witness :
    parseRepoTags (Csv.render [[Csv.Cell.plain "a", Csv.Cell.quoted "b,\"c\""],
                               [Csv.Cell.plain "", Csv.Cell.plain "d"]] true)
      = some (Slice.mk ["a", "b,\"c\"", "", "d"], none) :=
  parseRepoTags_wellFormed.1 _ true 2 (by decide) (by simp)
    (by simp [Csv.Cell.WellFormed]) (by simp) (by simp)

/-- C6: for every list of non-empty strings free of comma, double quote, carriage return
and line feed (the empty list and lists with repeats included), `parseRepoTags` applied
to the elements joined by commas returns no error and a sequence equal to the list. -/
theorem parseRepoTags_join_roundtrip (L : List String)
    (h : ∀ s ∈ L, s ≠ "" ∧ ',' ∉ s.data ∧ '"' ∉ s.data ∧ '\r' ∉ s.data ∧ '\n' ∉ s.data) :
    ∃ tags, parseRepoTags (String.intercalate "," L) = some (tags, none) ∧ tags.toList = L := by
  cases hL : L with
  | nil => exact ⟨Slice.nil, by decide, rfl⟩
  | cons a l =>
    rw [← hL]
    refine ⟨Slice.mk L, ?_, rfl⟩
    have hrender : String.intercalate "," L = Csv.render [L.map Csv.Cell.plain] false := by
      apply String.ext
      rw [intercalate_comma_data]
      simp [Csv.render, Csv.rowsChars, Csv.joinChars, Csv.Cell.chars, Function.comp_def]
    rw [hrender, parseRepoTags_render [L.map Csv.Cell.plain] false L.length]
    · simp [Csv.Cell.value, Function.comp_def]
    · rw [hL]; simp
    · simp
    · intro row hrow c hc
      simp only [List.mem_singleton] at hrow
      subst hrow
      obtain ⟨s, hs, rfl⟩ := List.mem_map.mp hc
      obtain ⟨-, h1, h2, h3, h4⟩ := h s hs
      exact ⟨h1, h2, h4, h3⟩
    · simp
    · intro row hrow e
      simp only [List.mem_singleton] at hrow
      subst hrow
      rw [hL] at e h
      cases l with
      | nil =>
        simp at e
        exact (h a (List.mem_cons_self _ _)).1 e
      | cons b l => simp at e

/-- C6 on the list `a`, `b`, `a` (a repeated element). -/
theorem parseRepoTags_join_roundtrip_witness :
    ∃ tags, parseRepoTags (String.intercalate "," ["a", "b", "a"]) = some (tags, none) ∧
      tags.toList = ["a", "b", "a"] :=
  parseRepoTags_join_roundtrip ["a", "b", "a"] (by decide)

/-- C7: an input with an odd number of double quotes makes `parseRepoTags` return an error
and the nil slice, whatever was read before; complete quoted fields hold an even number of
quotes, so this covers every input where, after text with an even number of quotes, a
quote opens a field that is never closed (its body holding doubled quotes only); so do
`a,"b` and, after a complete first row, `c,"d`. -/
theorem parseRepoTags_unterminated_quote :
    (∀ input : String, input.data.count '"' % 2 = 1 →
      ∃ e, parseRepoTags input = some (Slice.nil, some e)) ∧
    (∀ before body : List Char, before.count '"' % 2 = 0 →
      ∃ e, parseRepoTags (String.mk (before ++ '"' :: Csv.escapeChars body))
        = some (Slice.nil, some e)) ∧
    parseRepoTags "a,\"b" = some (Slice.nil, some Csv.ParseErr.ErrQuote) ∧
    parseRepoTags "a,b\nc,\"d" = some (Slice.nil, some Csv.ParseErr.ErrQuote) := by
  refine ⟨parseRepoTags_odd_quotes, ?_, by decide, by decide⟩
  intro before body hb
  apply parseRepoTags_odd_quotes
  have := Csv.count_escapeChars body
  simp only [List.count_append, List.count_cons_self]
  omega

/-- C7 on a first row that parses and a second row with an unterminated quote. -/
theorem parseRepoTags_unterminated_quote_witness :
    "a,b\nc,\"d".data.count '"' % 2 = 1 ∧
    ∃ e, parseRepoTags "a,b\nc,\"d" = some (Slice.nil, some e) :=
  ⟨by decide, parseRepoTags_unterminated_quote.1 "a,b\nc,\"d" (by decide)⟩

/-- C8: if the pull at position `k` is the first to fail, the run pulls exactly the
references at positions 0 to `k`, in order, makes no other call (no listing, no file
creation, no write) and ends fatally; if every pull succeeds, the run pulls every
reference once, in list order, then lists the images, and pulls nothing afterwards. -/
theorem run_fail_fast (env : Env) (refs : List String) (outputPath : String) :
    (∀ k ref, refs[k]? = some ref →
      (∀ j r, j < k → refs[j]? = some r → env.pull j r = PullResult.ok) →
      env.pull k ref ≠ PullResult.ok →
      run env refs outputPath = ((refs.take (k + 1)).map Event.pull, Exit.fatal)) ∧
    ((∀ j r, refs[j]? = some r → env.pull j r = PullResult.ok) →
      ∃ later exit, run env refs outputPath
          = (refs.map Event.pull ++ Event.listImages :: later, exit) ∧
        ∀ ev ∈ later, ∀ r, ev ≠ Event.pull r) := by
  constructor
  · intro k ref hk hok hfail
    have := pullAll_fail env 0 refs k ref hk (by simpa using hok) (by simpa using hfail)
    simp [run, this]
  · intro hok
    have := pullAll_ok env 0 refs (by simpa using hok)
    unfold run
    simp only [this]
    cases env.images with
    | none => exact ⟨[], Exit.fatal, by simp, by simp⟩
    | some listed =>
      by_cases hc : env.createOk = false
      · exact ⟨[Event.create outputPath], Exit.fatal, by simp [hc], by simp⟩
      · by_cases hw : env.writeOk = false
        · exact ⟨[Event.create outputPath, Event.write (marshalOutputMap
              { Hostname := env.hostname.getD "", Date := env.date,
                Images := matchImages listed refs })], Exit.fatal, by simp [hc, hw], by simp⟩
        · exact ⟨[Event.create outputPath, Event.write (marshalOutputMap
              { Hostname := env.hostname.getD "", Date := env.date,
                Images := matchImages listed refs })], Exit.success, by simp [hc, hw], by simp⟩

/-- C8 on three references with the second pull failing: two pulls, then a fatal end. -/
theorem run_fail_fast_witness :
    run failSecond ["r1", "r2", "r3"] "out.json"
      = ([Event.pull "r1", Event.pull "r2"], Exit.fatal) :=
  (run_fail_fast failSecond ["r1", "r2", "r3"] "out.json").1 1 "r2" (by decide)
    (by
      intro j r hj _
      have : j = 0 := by omega
      subst this
      rfl)
    (by decide)

/-- C9: the document is an object with the members `hostname`, `date`, `images` in that
order, the first two strings; `images` is the array of the emitted entries, each an object
with the string members `repo-tag`, `image-id`, `git-ref`, when at least one entry was
emitted, but it is `null`, not an empty array, when none was: so for the scenario inventory
and the request `repo/z:v9`. -/
theorem marshal_images_null :
    (∀ (hostname date : String) (I : List ImageSummary) (R : List String),
      marshalOutputMap { Hostname := hostname, Date := date, Images := matchImages I R }
        = Json.obj [("hostname", Json.str hostname), ("date", Json.str date),
            ("images", if specEntries I R = [] then Json.null
                       else Json.arr ((specEntries I R).map marshalImageInfo))]) ∧
    marshalOutputMap { Hostname := "host", Date := "2006-01-02T15:04:05-07:00",
                       Images := matchImages exampleInventory ["repo/z:v9"] }
      = Json.obj [("hostname", Json.str "host"), ("date", Json.str "2006-01-02T15:04:05-07:00"),
          ("images", Json.null)] ∧
    Json.null ≠ Json.arr [] := by
  refine ⟨?_, ?_, fun h => Json.noConfusion h⟩
  swap
  · rw [show matchImages exampleInventory ["repo/z:v9"] = Slice.nil by decide]
    rfl
  intro hostname date I R
  have hg := matchImages_grown I R
  have ht := matchImages_toList I R
  unfold marshalOutputMap marshalImages
  cases hm : matchImages I R with
  | nil =>
    rw [hm] at ht
    simp only [Slice.toList] at ht
    simp [← ht]
  | mk xs =>
    rw [hm] at ht hg
    simp only [Slice.toList] at ht
    have : xs ≠ [] := fun e => hg (by rw [e])
    rw [← ht]
    simp [this]

/-- C10: requested lists that are permutations of each other (duplicates allowed) give the
same `imageInfos`, element for element and in the same order. -/
theorem matchImages_permutation (I : List ImageSummary) (R R' : List String) (h : R.Perm R') :
    matchImages I R' = matchImages I R := by
  apply Slice.eq_of_toList (matchImages_grown I R') (matchImages_grown I R)
  rw [matchImages_toList, matchImages_toList, specEntries_eq_replicate, specEntries_eq_replicate]
  congr 1; funext li; congr 1; funext tag
  rw [h.count_eq]

/-- C10 on the end-to-end scenario with its two requested references swapped. -/
theorem matchImages_permutation_witness :
    (["repo/x:v1", "repo/y:v1"] : List String).Perm ["repo/y:v1", "repo/x:v1"] ∧
    matchImages exampleInventory ["repo/y:v1", "repo/x:v1"]
      = matchImages exampleInventory ["repo/x:v1", "repo/y:v1"] :=
  ⟨List.Perm.swap _ _ _, matchImages_permutation exampleInventory _ _ (List.Perm.swap _ _ _)⟩

end Manifest
